import Mathlib

set_option maxHeartbeats 1000000

/-!
Shallow embedding of the dependency-ordered service activator:
`pkg/compose/dependencies.go` (dependency graph construction, cycle
detection, concurrent dependency-ordered traversal) and
`pkg/compose/start.go` (the container watcher), together with proofs of
the behavioural properties claimed for them.

Go maps are represented as association lists in insertion order; map
iteration-order nondeterminism is recovered where it matters by closing
the traversal step relation under permutations of the iterated lists.
-/

/-- ServiceStatus indicates the status of a service (dependencies.go). -/
inductive ServiceStatus
  | stopped
  | started
deriving DecidableEq, Repr

/-- Vertex represents a service in the dependencies structure.  The Go
`Children`/`Parents` maps hold vertex pointers keyed by key; following the
canonical key-based representation they are stored as key lists in insertion
order, with lookups going through the graph. -/
structure Vertex where
  key : String
  service : String
  status : ServiceStatus
  children : List String
  parents : List String
deriving DecidableEq, Repr

/-- Graph represents project as service dependencies.  The Go
`Vertices map[string]*Vertex` is a list of vertices with distinct keys in
insertion order. -/
structure Graph where
  vertices : List Vertex
deriving DecidableEq, Repr

/-- Looking a key up in the vertex map (`g.Vertices[key]`); `none` is Go's
nil pointer. -/
def Graph.find? (g : Graph) (key : String) : Option Vertex :=
  g.vertices.find? (fun v => v.key == key)

def Graph.keys (g : Graph) : List String :=
  g.vertices.map (fun v => v.key)

/-- The children keys of the vertex stored at `key` (`[]` when the key is
absent: Go would dereference a nil pointer there; no theorem below depends
on that case). -/
def Graph.childKeys (g : Graph) (key : String) : List String :=
  match g.find? key with
  | some v => v.children
  | none => []

/-- The parents keys of the vertex stored at `key`. -/
def Graph.parentKeys (g : Graph) (key : String) : List String :=
  match g.find? key with
  | some v => v.parents
  | none => []

/-- NewVertex is the constructor function for the Vertex. -/
def NewVertex (key : String) (service : String) (initialStatus : ServiceStatus) : Vertex :=
  { key := key, service := service, status := initialStatus, parents := [], children := [] }

/-- AddVertex adds a vertex to the Graph (`g.Vertices[key] = v`: overwrites
an existing entry for the same key). -/
def Graph.AddVertex (g : Graph) (key : String) (service : String)
    (initialStatus : ServiceStatus) : Graph :=
  if g.vertices.any (fun v => v.key == key) then
    { vertices := g.vertices.map (fun v =>
        if v.key == key then NewVertex key service initialStatus else v) }
  else
    { vertices := g.vertices ++ [NewVertex key service initialStatus] }

/-- `sourceVertex.Children[destination] = destinationVertex` as a map over
the vertex list. -/
def addChildFn (source destination : String) (v : Vertex) : Vertex :=
  if v.key == source then { v with children := v.children ++ [destination] } else v

/-- `destinationVertex.Parents[source] = sourceVertex` as a map over the
vertex list. -/
def addParentFn (source destination : String) (v : Vertex) : Vertex :=
  if v.key == destination then { v with parents := v.parents ++ [source] } else v

/-- AddEdge adds a relationship of dependency between vertices `source` and
`destination`.  Missing endpoints produce the `could not find` errors; a
duplicate edge is a no-op. -/
def Graph.AddEdge (g : Graph) (source : String) (destination : String) :
    Except String Graph :=
  match g.find? source with
  | none => .error ("could not find " ++ source)
  | some sourceVertex =>
    match g.find? destination with
    | none => .error ("could not find " ++ destination)
    | some _ =>
      if destination ∈ sourceVertex.children then .ok g
      else
        .ok (Graph.mk ((g.vertices.map (addChildFn source destination)).map
          (addParentFn source destination)))

/-- Leaves returns the slice of leaves of the graph (vertices with no
children). -/
def Graph.Leaves (g : Graph) : List Vertex :=
  g.vertices.filter (fun v => v.children.length == 0)

/-- Roots returns the slice of "Roots" of the graph (vertices with no
parents). -/
def Graph.Roots (g : Graph) : List Vertex :=
  g.vertices.filter (fun v => v.parents.length == 0)

/-- `g.Vertices[key].Status = status` as a map over the vertex list. -/
def setStatusFn (key : String) (status : ServiceStatus) (v : Vertex) : Vertex :=
  if v.key == key then { v with status := status } else v

/-- UpdateStatus updates the status of a certain vertex.  Go dereferences
`g.Vertices[key]` without a presence check: `none` models the nil-pointer
panic on an absent key. -/
def Graph.UpdateStatus (g : Graph) (key : String) (status : ServiceStatus) :
    Option Graph :=
  match g.find? key with
  | none => none
  | some _ =>
    some { vertices := g.vertices.map (setStatusFn key status) }

/-- FilterChildren returns children of a certain vertex that are in a certain
status.  As in `UpdateStatus`, an absent key is Go's nil-pointer panic,
modelled as `none`. -/
def Graph.FilterChildren (g : Graph) (key : String) (status : ServiceStatus) :
    Option (List Vertex) :=
  match g.find? key with
  | none => none
  | some vertex =>
    some ((vertex.children.filterMap g.find?).filter (fun c => c.status == status))

/-- FilterParents returns the parents of a certain vertex that are in a
certain status. -/
def Graph.FilterParents (g : Graph) (key : String) (status : ServiceStatus) :
    Option (List Vertex) :=
  match g.find? key with
  | none => none
  | some vertex =>
    some ((vertex.parents.filterMap g.find?).filter (fun c => c.status == status))

/-- `remove(slice, item)` from dependencies.go: keeps every element different
from `item`. -/
def removeAll (slice : List String) (item : String) : List String :=
  slice.filter (fun i => i ≠ item)

/-- Runs the loop body over a list, stopping at the first error: the shape of
the early-return `for` loops in the Go source. -/
def firstErrorM {α ε : Type} (f : α → Except ε Unit) : List α → Except ε Unit
  | [] => .ok ()
  | a :: l =>
    match f a with
    | .error e => .error e
    | .ok _ => firstErrorM f l

/-- `Graph.visit` from dependencies.go (named `visitCycle` here to avoid a
clash with the traversal's `visit`): the DFS used by cycle detection.  The
recursion is fuelled; `HasCycles` supplies fuel that is proven sufficient.
The Go code discards the `discovered`/`finished` lists returned by recursive
calls, which this translation reproduces. -/
def Graph.visitCycle (g : Graph) :
    Nat → String → List String → List String → List String →
    Except String (List String × List String)
  | 0, _, _, discovered, finished => .ok (discovered, finished)
  | Nat.succ fuel, key, path, discovered, finished =>
    match firstErrorM (fun c =>
        if c ∈ discovered ++ [key] then
          .error ("cycle found: " ++ String.intercalate " -> " (path ++ [c]))
        else if c ∈ finished then .ok ()
        else
          match g.visitCycle fuel c (path ++ [c]) (discovered ++ [key]) finished with
          | .error e => .error e
          | .ok _ => .ok ()) (g.childKeys key) with
    | .error e => .error e
    | .ok _ => .ok (removeAll (discovered ++ [key]) key, finished ++ [key])

/-- Fuel sufficient for `visitCycle` starting from an empty discovered list. -/
def Graph.cycleFuel (g : Graph) : Nat :=
  g.vertices.length + 1

/-- The loop of `HasCycles` over the vertex map. -/
def Graph.hasCyclesAux (g : Graph) :
    List Vertex → List String → List String → Option String
  | [], _, _ => none
  | vertex :: rest, discovered, finished =>
    if vertex.key ∉ discovered ∧ vertex.key ∉ finished then
      match g.visitCycle g.cycleFuel vertex.key [vertex.key] discovered finished with
      | .error e => some e
      | .ok (d, f) => g.hasCyclesAux rest d f
    else
      g.hasCyclesAux rest discovered finished

/-- HasCycles detects cycles in the graph.  Go returns `(bool, error)`; the
pair is collapsed to `Option String` (`some` = cycle error). -/
def Graph.HasCycles (g : Graph) : Option String :=
  g.hasCyclesAux g.vertices [] []

/-- A service as consumed from the project loader: a name plus the dependency
names reported by `GetDependencies` (external compose-go model). -/
structure ServiceConfig where
  name : String
  dependencies : List String
deriving DecidableEq, Repr

/-- The `_ = graph.AddEdge(s.Name, name)` call in NewGraph: the AddEdge
error is discarded, leaving the graph unchanged when an endpoint is
unknown. -/
def Graph.addEdgeDiscard (g : Graph) (source : String) (destination : String) : Graph :=
  match g.AddEdge source destination with
  | .ok g' => g'
  | .error _ => g

/-- The first loop of NewGraph: a vertex per service. -/
def newGraphVertices (services : List ServiceConfig)
    (initialStatus : ServiceStatus) : Graph :=
  services.foldl (fun g s => g.AddVertex s.name s.name initialStatus) { vertices := [] }

/-- The second loop of NewGraph: an edge per declared dependency, errors
discarded. -/
def newGraphBuilt (services : List ServiceConfig)
    (initialStatus : ServiceStatus) : Graph :=
  services.foldl (fun g s =>
      s.dependencies.foldl (fun g name => g.addEdgeDiscard s.name name) g)
    (newGraphVertices services initialStatus)

/-- NewGraph returns the dependency graph of the services.  Note that the
error of each `AddEdge` call is discarded (`_ = graph.AddEdge(s.Name, name)`
in the source), so an edge with an unknown endpoint is silently skipped. -/
def NewGraph (services : List ServiceConfig) (initialStatus : ServiceStatus) :
    Except String Graph :=
  match (newGraphBuilt services initialStatus).HasCycles with
  | some err => .error err
  | none => .ok (newGraphBuilt services initialStatus)

/-! ## The concurrent traversal (graphTraversal, dependencies.go)

The traversal is modelled as a small-step relation over an explicit state:
the main goroutine processing the extremity list, worker goroutines running
the visitor, and the coordinator goroutine receiving completions from the
unbuffered `nodeCh` and scheduling the adjacent nodes.  The visitor is a
function from the service payload to an optional error.  `SetLimit`
(maxConcurrency) only restricts which interleavings occur, so it is not
modelled; all claims proved below are universally quantified over
interleavings. -/

/-- The two pre-configured traversal shapes (`upDirectionTraversal` /
`downDirectionTraversal`). -/
inductive TraversalDirection
  | up
  | down
deriving DecidableEq, Repr

/-- `extremityNodesFn`: leaves for up, roots for down. -/
def extremityNodes : TraversalDirection → Graph → List Vertex
  | .up, g => g.Leaves
  | .down, g => g.Roots

/-- `adjacentNodesFn`: getParents for up, getChildren for down (as keys). -/
def adjacentKeys : TraversalDirection → Graph → String → List String
  | .up, g, k => g.parentKeys k
  | .down, g, k => g.childKeys k

/-- `filterAdjacentByStatusFn`: filterChildren for up, filterParents for
down. -/
def filterAdjacentByStatus :
    TraversalDirection → Graph → String → ServiceStatus → Option (List Vertex)
  | .up, g, k, s => g.FilterChildren k s
  | .down, g, k, s => g.FilterParents k s

/-- The neighbors whose status gates a vertex's readiness: children for up,
parents for down. -/
def gatingKeys : TraversalDirection → Graph → String → List String
  | .up, g, k => g.childKeys k
  | .down, g, k => g.parentKeys k

def adjacentServiceStatusToSkip : TraversalDirection → ServiceStatus
  | .up => .stopped
  | .down => .started

def targetServiceStatus : TraversalDirection → ServiceStatus
  | .up => .started
  | .down => .stopped

/-- The state shared between the main goroutine, the workers and the
coordinator during one `graphTraversal.visit` call. -/
structure TravState where
  /-- the Graph (vertex statuses are the mutable part) -/
  graph : Graph
  /-- the traversal's seen-set (`t.seen`, mutex-guarded) -/
  seen : List String
  /-- extremity nodes the initial `t.run` call has not yet processed -/
  mainPending : List String
  /-- keys whose worker goroutine is still executing `visitorFn` -/
  running : List String
  /-- workers that finished the visitor (status already updated on success)
      and are blocked sending their node on the unbuffered `nodeCh` -/
  sendPending : List (String × Option String)
  /-- nodes the coordinator's current `t.run` call still has to process -/
  coordPending : List String
  /-- the coordinator's countdown -/
  expect : Nat
  /-- the first error recorded by the errgroup -/
  firstErr : Option String
  /-- whether the errgroup's shared context has been cancelled -/
  canceled : Bool
  /-- the coordinator closed `nodeCh` and exited (`expect == 0`) -/
  coordDone : Bool
deriving DecidableEq, Repr

/-- One iteration of the loop body of `graphTraversal.run` for a node `k`:
skip unless `filterAdjacentByStatus` is empty (readiness), skip unless
`consume(key)` succeeds (the seen-set), otherwise start a worker goroutine
for the node.  (`filterAdjacentByStatus = none` is the Go nil-pointer panic
on an absent key, which never occurs on the keys `run` is given; it is
modelled as a skip and no theorem depends on it.) -/
def processNode (d : TraversalDirection) (s : TravState) (k : String) : TravState :=
  if filterAdjacentByStatus d s.graph k (adjacentServiceStatusToSkip d) = some [] then
    if k ∈ s.seen then s
    else { s with seen := s.seen ++ [k], running := s.running ++ [k] }
  else s

/-- The state at the start of `graphTraversal.visit`: if the graph is empty
the function returns nil before starting any goroutine (`coordDone` is
already set); otherwise the countdown is the vertex count and the initial
`run` call will process the extremity nodes. -/
def travInit (d : TraversalDirection) (g : Graph) : TravState :=
  { graph := g
    seen := []
    mainPending := (extremityNodes d g).map (fun v => v.key)
    running := []
    sendPending := []
    coordPending := []
    expect := g.vertices.length
    firstErr := none
    canceled := false
    coordDone := g.vertices.length == 0 }

/-- Start states of `visit`: Go map iteration delivers the extremities in an
arbitrary order, so the initial pending list is any permutation. -/
def TravStart (d : TraversalDirection) (g : Graph) (s : TravState) : Prop :=
  ∃ exts, exts.Perm ((extremityNodes d g).map (fun v => v.key)) ∧
    s = { travInit d g with mainPending := exts }

/-- The interleaved small-step semantics of `graphTraversal.visit`. -/
inductive TravStep (d : TraversalDirection) (visitor : String → Option String) :
    TravState → TravState → Prop
  /-- the main goroutine's `t.run` processes the next extremity node -/
  | main (s : TravState) (k : String) (rest : List String)
      (h : s.mainPending = k :: rest) :
      TravStep d visitor s { processNode d s k with mainPending := rest }
  /-- the coordinator's `t.run` processes the next adjacent node -/
  | coord (s : TravState) (k : String) (rest : List String)
      (h : s.coordPending = k :: rest) :
      TravStep d visitor s { processNode d s k with coordPending := rest }
  /-- a worker finishes `visitorFn`; on success it updates the vertex status
      (`UpdateStatus` happens before the send on `nodeCh`), then blocks
      sending its node -/
  | finish (s : TravState) (k : String) (h : k ∈ s.running) :
      TravStep d visitor s
        { s with running := s.running.erase k
                 sendPending := s.sendPending ++ [(k, visitor k)]
                 graph := if visitor k = none
                   then (s.graph.UpdateStatus k (targetServiceStatus d)).getD s.graph
                   else s.graph }
  /-- the idle coordinator receives one blocked sender (any of them), the
      worker returns (the errgroup records its error and cancels the shared
      context), and the coordinator decrements the countdown, either closing
      `nodeCh` at zero or scheduling the adjacent nodes (in an arbitrary map
      iteration order) -/
  | rendezvous (s : TravState) (pre post : List (String × Option String))
      (k : String) (r : Option String) (adj : List String)
      (hidle : s.coordPending = [])
      (hdone : s.coordDone = false)
      (hsend : s.sendPending = pre ++ (k, r) :: post)
      (hadj : adj.Perm (adjacentKeys d s.graph k)) :
      TravStep d visitor s
        { s with sendPending := pre ++ post
                 expect := s.expect - 1
                 coordDone := s.expect - 1 == 0
                 coordPending := if s.expect - 1 == 0 then [] else adj
                 firstErr := (s.firstErr).orElse (fun _ => r)
                 canceled := s.canceled || r.isSome }

/-- Reachability of a traversal state from the start of `visit`. -/
def Reaches (d : TraversalDirection) (visitor : String → Option String)
    (g : Graph) (s : TravState) : Prop :=
  ∃ s0, TravStart d g s0 ∧ Relation.ReflTransGen (TravStep d visitor) s0 s

/-! ## The container watcher (`composeService.watchContainers`, start.go)

The event consumer is single-threaded, so it is modelled as a deterministic
fold over the incoming event list.  Each event carries the outcome of the
`ContainerInspect` call the consumer performs for it (the runtime is an
external collaborator).  The helpers from `pkg/utils` and the container-name
helper are not under src/ and are modelled from the spec. -/

/-- A container as the watcher sees it: identity, name, the `service` and
`container-replace` labels, and the inspected state. -/
structure WContainer where
  id : String
  name : String
  serviceLabel : String
  replaceLabel : Option String
  restarting : Bool
  exitCode : Int
deriving DecidableEq, Repr

/-- The outcome of `ContainerInspect` for an event (not-found is the
container vanishing between event and inspect). -/
inductive WInspect
  | notFound
  | found (c : WContainer)
deriving DecidableEq, Repr

/-- An engine event together with its inspection outcome. -/
structure WEvent where
  container : String
  status : String
  inspected : WInspect
deriving DecidableEq, Repr

/-- The event taxonomy delivered to the listener (`api.ContainerEvent*`). -/
inductive ContainerEventType
  | containerEventAttach
  | containerEventStopped
  | containerEventRecreated
  | containerEventExit
deriving DecidableEq, Repr

/-- `api.ContainerEvent` as delivered to the listener. -/
structure ContainerEvent where
  type : ContainerEventType
  container : String
  id : String
  service : String
  exitCode : Int
  restarting : Bool
deriving DecidableEq, Repr

/-- Modelled from the spec: `utils.Contains` / `utils.StringContains`
(pkg/utils, not under src/) test membership of an element in a slice. -/
def utilsContains (l : List String) (x : String) : Bool :=
  l.contains x

/-- Modelled from the spec: `utils.Remove` (pkg/utils, not under src/)
removes an element from a slice (the expected set is treated as a set of
container IDs). -/
def utilsRemove (l : List String) (x : String) : List String :=
  l.filter (fun i => i ≠ x)

/-- Modelled from the spec: `getContainerNameWithoutProject` (not under
src/) derives the display name of a container; only its flow into listener
events matters here. -/
def getContainerNameWithoutProject (c : WContainer) : String :=
  c.name

/-- The `watched` map from container ID to restart counter. -/
def watchedLookup (w : List (String × Nat)) (id : String) : Option Nat :=
  (w.find? (fun p => p.1 == id)).map (fun p => p.2)

def watchedSet (w : List (String × Nat)) (id : String) (n : Nat) :
    List (String × Nat) :=
  if w.any (fun p => p.1 == id) then
    w.map (fun p => if p.1 == id then (id, n) else p)
  else w ++ [(id, n)]

def watchedDelete (w : List (String × Nat)) (id : String) : List (String × Nat) :=
  w.filter (fun p => p.1 ≠ id)

/-- The watcher's mutable state, together with the observable outputs
(listener events and callback invocations, in order). -/
structure WatchState where
  expected : List String
  watched : List (String × Nat)
  replaced : List String
  listenerEvents : List ContainerEvent
  onStartCalls : List String
  onRecreateCalls : List String
  stopped : Bool
deriving DecidableEq, Repr

def watchInitState : WatchState :=
  { expected := [], watched := [], replaced := [], listenerEvents := []
    onStartCalls := [], onRecreateCalls := [], stopped := false }

/-- The body of the event consumer closure in `watchContainers`, for one
event.  `onStart` and `onRecreate` are the two callbacks (their invocations
are recorded, and a returned error aborts the consumer as in Go). -/
def processEvent (onStart onRecreate : WContainer → Option String)
    (st : WatchState) (event : WEvent) : Except String WatchState :=
  match event.inspected with
  | .notFound =>
    -- remove the watch without erroring; Go returns nil here, before the
    -- expected-empty check at the bottom of the consumer
    .ok { st with watched := watchedDelete st.watched event.container
                  expected := utilsRemove st.expected event.container }
  | .found container =>
    let name := getContainerNameWithoutProject container
    let service := container.serviceLabel
    let afterSwitch : Except String WatchState :=
      if event.status == "stop" then
        let st₁ :=
          if (watchedLookup st.watched container.id).isSome then
            let eType :=
              if utilsContains st.replaced container.id then
                -- Go calls utils.Remove(replaced, container.ID) here but
                -- discards the result: replaced is grow-only
                ContainerEventType.containerEventRecreated
              else ContainerEventType.containerEventStopped
            { st with listenerEvents := st.listenerEvents ++
                [{ type := eType, container := name, id := container.id
                   service := service, exitCode := 0, restarting := false }] }
          else st
        .ok { st₁ with watched := watchedDelete st₁.watched container.id
                       expected := utilsRemove st₁.expected container.id }
      else if event.status == "die" then
        let restarted := (watchedLookup st.watched container.id).getD 0
        let willRestart := container.restarting
        let eType :=
          if utilsContains st.replaced container.id then
            ContainerEventType.containerEventRecreated
          else ContainerEventType.containerEventExit
        let st₁ := { st with
          watched := watchedSet st.watched container.id (restarted + 1)
          listenerEvents := st.listenerEvents ++
            [{ type := eType, container := name, id := container.id
               service := service, exitCode := container.exitCode
               restarting := willRestart }] }
        .ok (if willRestart then st₁
          else { st₁ with watched := watchedDelete st₁.watched container.id
                          expected := utilsRemove st₁.expected container.id })
      else if event.status == "start" then
        match watchedLookup st.watched container.id with
        | some count =>
          if count > 0 then
            -- container restarted, need to re-attach
            let st₁ := { st with onStartCalls := st.onStartCalls ++ [container.id] }
            match onStart container with
            | some e => .error e
            | none => .ok st₁
          else .ok st
        | none =>
          -- a new container has just been added to service by scale
          let st₁ := { st with watched := watchedSet st.watched container.id 0
                               expected := st.expected ++ [container.id] }
          let st₂ := { st₁ with onStartCalls := st₁.onStartCalls ++ [container.id] }
          match onStart container with
          | some e => .error e
          | none => .ok st₂
      else if event.status == "create" then
        match container.replaceLabel with
        | some id =>
          let st₁ := { st with replaced := st.replaced ++ [id]
                               onRecreateCalls := st.onRecreateCalls ++ [container.id] }
          match onRecreate container with
          | some e => .error e
          | none =>
            -- the new ID is appended once for utils.StringContains and once
            -- more for utils.Contains: the two guards are the same test
            let expected₁ :=
              if utilsContains st₁.expected id then st₁.expected ++ [container.id]
              else st₁.expected
            let st₂ := { st₁ with expected := expected₁
                                  watched := watchedSet st₁.watched container.id 1 }
            let expected₂ :=
              if utilsContains st₂.expected id then st₂.expected ++ [container.id]
              else st₂.expected
            .ok { st₂ with expected := expected₂ }
        | none => .ok st
      else .ok st
    match afterSwitch with
    | .error e => .error e
    | .ok st' =>
      .ok (if st'.expected.length == 0 then { st' with stopped := true } else st')

/-- The synchronous `Events` subscription: the consumer runs per event until
it errors or the internal `stop()` cancels the subscription.  The pair is
the state when the subscription ends (or the whole event list is consumed)
and the consumer's error, if any. -/
def runConsumer (onStart onRecreate : WContainer → Option String) :
    WatchState → List WEvent → WatchState × Option String
  | st, [] => (st, none)
  | st, e :: es =>
    if st.stopped then (st, none)
    else
      match processEvent onStart onRecreate st e with
      | .error err => (st, some err)
      | .ok st' => runConsumer onStart onRecreate st' es

/-- The seeding loop of `watchContainers`: expect the IDs of the initial
containers whose service label is required, and watch every initial
container with restart counter 0. -/
def seedWatch (required : List String) : List WContainer → WatchState → WatchState
  | [], st => st
  | c :: cs, st =>
    let st₁ :=
      if utilsContains required c.serviceLabel then
        { st with expected := st.expected ++ [c.id] }
      else st
    seedWatch required cs { st₁ with watched := watchedSet st₁.watched c.id 0 }

/-- The observable outcome of a `watchContainers` call after a finite event
prefix: whether (and with what) the call has returned, whether it subscribed
to the event stream at all, and the consumer state. -/
structure WatchResult where
  /-- `none`: still blocked in `Events`; `some r`: returned with `r`
      (`none` = nil) -/
  returned : Option (Option String)
  subscribed : Bool
  finalState : WatchState
deriving DecidableEq, Repr

/-- `composeService.watchContainers` (start.go): early-returns nil on an
empty snapshot, defaults an empty `required` to `services`, seeds the state,
then consumes events until an error or the internal stop.  An error from the
consumer is returned as-is (the internal context is only cancelled by
`stop()`, which never precedes a consumer error); after `stop()` the
cancelled context makes the function return nil. -/
def watchContainers (services required : List String)
    (containers : List WContainer)
    (onStart onRecreate : WContainer → Option String)
    (events : List WEvent) : WatchResult :=
  if containers.length == 0 then
    { returned := some none, subscribed := false, finalState := watchInitState }
  else
    let required := if required.length == 0 then services else required
    let st0 := seedWatch required containers watchInitState
    match runConsumer onStart onRecreate st0 events with
    | (st, some e) => { returned := some (some e), subscribed := true, finalState := st }
    | (st, none) =>
      { returned := if st.stopped then some none else none
        subscribed := true, finalState := st }

/-! ## Basic graph lemmas -/

theorem Graph.find?_isSome_iff_mem_keys (g : Graph) (key : String) :
    (g.find? key).isSome ↔ key ∈ g.keys := by
  simp only [Graph.find?, Graph.keys, List.find?_isSome, List.mem_map]
  constructor
  · rintro ⟨v, hv, hkey⟩
    exact ⟨v, hv, by simpa using hkey⟩
  · rintro ⟨v, hv, hkey⟩
    exact ⟨v, hv, by simpa using hkey⟩

theorem Graph.find?_eq_none_iff_not_mem_keys (g : Graph) (key : String) :
    g.find? key = none ↔ key ∉ g.keys := by
  rw [← Graph.find?_isSome_iff_mem_keys]
  cases g.find? key <;> simp

/-! ## Watcher lemmas -/

theorem seedWatch_expected (required : List String) (cs : List WContainer)
    (st : WatchState) :
    (seedWatch required cs st).expected
      = st.expected
        ++ (cs.filter (fun c => utilsContains required c.serviceLabel)).map
            (fun c => c.id) := by
  induction cs generalizing st with
  | nil => simp [seedWatch]
  | cons c cs ih =>
    simp only [seedWatch]
    by_cases h : utilsContains required c.serviceLabel
    · simp [h, ih, List.filter_cons]
    · simp only [Bool.not_eq_true] at h
      simp [h, ih, List.filter_cons]

/-- C9: for every call to watchContainers with an empty initial container
snapshot, the function returns nil immediately: it never subscribes to the
event stream, never invokes the listener or the onStart/onRecreate
callbacks, regardless of the required and services arguments. -/
theorem C9_empty_snapshot_returns_nil (services required : List String)
    (onStart onRecreate : WContainer → Option String) (events : List WEvent) :
    watchContainers services required [] onStart onRecreate events
      = { returned := some none, subscribed := false, finalState := watchInitState } := by
  rfl

/-- C10: for every call to watchContainers with an empty `required` list,
the required set defaults to the full `services` list before seeding, so the
call behaves exactly like one with `required = services`, and the seeding
produces the IDs of all initial containers whose service label is in
`services` (not the empty set). -/
theorem C10_empty_required_defaults_to_services (services : List String)
    (containers : List WContainer)
    (onStart onRecreate : WContainer → Option String) (events : List WEvent) :
    watchContainers services [] containers onStart onRecreate events
      = watchContainers services services containers onStart onRecreate events
    ∧ (seedWatch services containers watchInitState).expected
        = (containers.filter (fun c => utilsContains services c.serviceLabel)).map
            (fun c => c.id) := by
  constructor
  · unfold watchContainers
    simp [ite_self]
  · simpa using seedWatch_expected services containers watchInitState

/-- C8: the graph status operations are partial at the public interface:
UpdateStatus, FilterChildren and FilterParents dereference the vertex looked
up by key without a presence check, so for every key present in
Graph.Vertices they are well-defined, and for any key not present they
dereference a nil vertex (modelled as `none`, the Go panic); they are total
exactly under the precondition that the key is in the graph. -/
theorem C8_status_ops_partial (g : Graph) (key : String) (st : ServiceStatus) :
    (key ∈ g.keys →
      (g.UpdateStatus key st).isSome
      ∧ (g.FilterChildren key st).isSome
      ∧ (g.FilterParents key st).isSome)
    ∧ (key ∉ g.keys →
      g.UpdateStatus key st = none
      ∧ g.FilterChildren key st = none
      ∧ g.FilterParents key st = none) := by
  constructor
  · intro hmem
    have h := (Graph.find?_isSome_iff_mem_keys g key).mpr hmem
    obtain ⟨v, hv⟩ := Option.isSome_iff_exists.mp h
    simp [Graph.UpdateStatus, Graph.FilterChildren, Graph.FilterParents, hv]
  · intro hmem
    have h := (Graph.find?_eq_none_iff_not_mem_keys g key).mpr hmem
    simp [Graph.UpdateStatus, Graph.FilterChildren, Graph.FilterParents, h]

/-- Witness for C8 at a concrete one-vertex graph and a present and an
absent key. -/
theorem C8_status_ops_partial_witness :
    ("a" ∈ (Graph.mk [NewVertex "a" "a" .stopped]).keys
      → ((Graph.mk [NewVertex "a" "a" .stopped]).UpdateStatus "a" .started).isSome
        ∧ ((Graph.mk [NewVertex "a" "a" .stopped]).FilterChildren "a" .started).isSome
        ∧ ((Graph.mk [NewVertex "a" "a" .stopped]).FilterParents "a" .started).isSome)
    ∧ ("a" ∉ (Graph.mk [NewVertex "a" "a" .stopped]).keys
      → (Graph.mk [NewVertex "a" "a" .stopped]).UpdateStatus "a" .started = none
        ∧ (Graph.mk [NewVertex "a" "a" .stopped]).FilterChildren "a" .started = none
        ∧ (Graph.mk [NewVertex "a" "a" .stopped]).FilterParents "a" .started = none) :=
  C8_status_ops_partial (Graph.mk [NewVertex "a" "a" .stopped]) "a" .started

theorem utilsContains_iff (l : List String) (x : String) :
    utilsContains l x = true ↔ x ∈ l := by
  simp [utilsContains]

theorem watchedLookup_cons (q : String × Nat) (rest : List (String × Nat))
    (id : String) :
    watchedLookup (q :: rest) id
      = if (q.1 == id) = true then some q.2 else watchedLookup rest id := by
  by_cases h : (q.1 == id) = true
  · simp [watchedLookup, List.find?_cons, h]
  · simp [watchedLookup, List.find?_cons, h]

theorem watchedLookup_set (id : String) (n : Nat) (w : List (String × Nat)) :
    watchedLookup (watchedSet w id n) id = some n := by
  have hmap : ∀ w : List (String × Nat), w.any (fun p => p.1 == id) = true →
      watchedLookup (w.map (fun p => if p.1 == id then (id, n) else p)) id = some n := by
    intro w
    induction w with
    | nil => simp
    | cons p ps ih =>
      intro h
      by_cases hp : (p.1 == id) = true
      · rw [List.map_cons, if_pos hp, watchedLookup_cons]
        simp
      · simp only [List.any_cons, hp, Bool.false_or] at h
        rw [List.map_cons, if_neg hp, watchedLookup_cons, if_neg hp]
        exact ih h
  have happ : ∀ w : List (String × Nat), w.any (fun p => p.1 == id) = false →
      watchedLookup (w ++ [(id, n)]) id = some n := by
    intro w
    induction w with
    | nil =>
      intro _
      rw [List.nil_append, watchedLookup_cons]
      simp
    | cons p ps ih =>
      intro h
      simp only [List.any_cons, Bool.or_eq_false_iff] at h
      rw [List.cons_append, watchedLookup_cons, if_neg (by simp [h.1])]
      exact ih h.2
  unfold watchedSet
  by_cases h : w.any (fun p => p.1 == id) = true
  · simpa [h] using hmap w h
  · have h' : w.any (fun p => p.1 == id) = false := by
      cases hx : w.any (fun p => p.1 == id) <;> simp_all
    simpa [h'] using happ w h'

/-- The old container of the watcher recreation scenario. -/
def watchScenarioOld : WContainer := ⟨"c1", "c1n", "a", none, false, 0⟩

/-- The replacement container of the watcher recreation scenario; its
replace-label names the old container. -/
def watchScenarioNew : WContainer := ⟨"c2", "c2n", "a", some "c1", false, 0⟩

/-- The event stream of the recreation scenario:
create(c2, replace=c1), stop(c1), start(c2). -/
def watchScenarioEvents : List WEvent :=
  [⟨"c2", "create", .found watchScenarioNew⟩,
   ⟨"c1", "stop", .found watchScenarioOld⟩,
   ⟨"c2", "start", .found watchScenarioNew⟩]

/-- The watcher outcome on the recreation scenario (initial snapshot [c1],
required = [a]). -/
def watchScenarioResult : WatchResult :=
  watchContainers ["a"] ["a"] [watchScenarioOld]
    (fun _ => none) (fun _ => none) watchScenarioEvents

/-- C7 counterexample: in the recreation scenario the listener does receive
Recreated(c1), but `expected` does not drain — it ends as [c2, c2], the new
ID having been appended twice and never removed by the start event — and the
watcher has not returned (in particular it has not returned nil). -/
theorem C7_counterexample :
    watchScenarioResult.finalState.listenerEvents
      = [⟨.containerEventRecreated, "c1n", "c1", "a", 0, false⟩]
    ∧ watchScenarioResult.finalState.expected = ["c2", "c2"]
    ∧ watchScenarioResult.returned = none :=
  ⟨rfl, rfl, rfl⟩

/-- C7 (amended): on a `create` event whose container carries the
replace-label naming oldID, the watcher records oldID in replaced, invokes
the onRecreate callback, sets the new container's watched counter to 1, and
appends the new container ID to expected (twice, the guard being duplicated)
if and only if oldID was in expected; in the recreation scenario the
listener receives Recreated for c1, but expected does not drain (it ends as
[c2, c2], the start event removing nothing) and the watcher does not
return. -/
theorem C7_create_effects_and_no_drain :
    (∀ (onStart onRecreate : WContainer → Option String) (st : WatchState)
        (event : WEvent) (c : WContainer) (oldID : String),
      event.status = "create" → event.inspected = .found c →
      c.replaceLabel = some oldID → onRecreate c = none →
      ∃ st', processEvent onStart onRecreate st event = .ok st'
        ∧ st'.replaced = st.replaced ++ [oldID]
        ∧ st'.onRecreateCalls = st.onRecreateCalls ++ [c.id]
        ∧ st'.watched = watchedSet st.watched c.id 1
        ∧ watchedLookup st'.watched c.id = some 1
        ∧ st'.expected
            = (if oldID ∈ st.expected then st.expected ++ [c.id] ++ [c.id]
               else st.expected))
    ∧ watchScenarioResult.finalState.listenerEvents
        = [⟨.containerEventRecreated, "c1n", "c1", "a", 0, false⟩]
    ∧ watchScenarioResult.finalState.expected = ["c2", "c2"]
    ∧ watchScenarioResult.returned = none := by
  refine ⟨?_, rfl, rfl, rfl⟩
  rintro onStart onRecreate st ⟨econt, estat, einsp⟩ c oldID h1 h2 h3 h4
  simp only at h1 h2
  subst h1
  subst h2
  have hs1 : (("create" : String) == "stop") = false := by decide
  have hs2 : (("create" : String) == "die") = false := by decide
  have hs3 : (("create" : String) == "start") = false := by decide
  have hs4 : (("create" : String) == "create") = true := by decide
  simp only [processEvent, h3, h4, hs1, hs2, hs3, hs4, Bool.false_eq_true, if_false,
    if_true]
  by_cases hmem : oldID ∈ st.expected
  · have hc : utilsContains st.expected oldID = true := (utilsContains_iff _ _).mpr hmem
    have hc2 : utilsContains (st.expected ++ [c.id]) oldID = true := by
      rw [utilsContains_iff]
      exact List.mem_append_left _ hmem
    simp only [hc, hc2, if_true, if_pos hmem]
    split
    · exact ⟨_, rfl, rfl, rfl, rfl, watchedLookup_set _ _ _, rfl⟩
    · exact ⟨_, rfl, rfl, rfl, rfl, watchedLookup_set _ _ _, rfl⟩
  · have hc : utilsContains st.expected oldID = false := by
      cases hx : utilsContains st.expected oldID
      · rfl
      · exact absurd ((utilsContains_iff _ _).mp hx) hmem
    simp only [hc, if_neg hmem, Bool.false_eq_true, if_false]
    split
    · exact ⟨_, rfl, rfl, rfl, rfl, watchedLookup_set _ _ _, rfl⟩
    · exact ⟨_, rfl, rfl, rfl, rfl, watchedLookup_set _ _ _, rfl⟩

/-- Witness for C7: the create-event clause applied at a concrete state in
which the old ID is expected. -/
theorem C7_create_effects_and_no_drain_witness :
    ∃ st', processEvent (fun _ => none) (fun _ => none)
        { expected := ["c1"], watched := [("c1", 0)], replaced := []
          listenerEvents := [], onStartCalls := [], onRecreateCalls := []
          stopped := false }
        ⟨"c2", "create", .found watchScenarioNew⟩ = .ok st'
      ∧ st'.replaced = [] ++ ["c1"]
      ∧ st'.onRecreateCalls = [] ++ [watchScenarioNew.id]
      ∧ st'.watched = watchedSet [("c1", 0)] watchScenarioNew.id 1
      ∧ watchedLookup st'.watched watchScenarioNew.id = some 1
      ∧ st'.expected
          = (if "c1" ∈ ["c1"] then ["c1"] ++ [watchScenarioNew.id] ++ [watchScenarioNew.id]
             else ["c1"]) :=
  C7_create_effects_and_no_drain.1 (fun _ => none) (fun _ => none)
    { expected := ["c1"], watched := [("c1", 0)], replaced := []
      listenerEvents := [], onStartCalls := [], onRecreateCalls := []
      stopped := false }
    ⟨"c2", "create", .found watchScenarioNew⟩ watchScenarioNew "c1"
    rfl rfl rfl rfl

/-! ## Cycle detection: walks, soundness of the reported path -/

/-- The edge relation of a graph: `b` is a declared child (dependency) of
`a`. -/
def IsEdge (g : Graph) (a b : String) : Prop :=
  b ∈ g.childKeys a

instance (g : Graph) (a b : String) : Decidable (IsEdge g a b) :=
  inferInstanceAs (Decidable (b ∈ g.childKeys a))

/-- A dependency edge declared by the input service list. -/
def DeclEdge (services : List ServiceConfig) (a b : String) : Prop :=
  ∃ s ∈ services, s.name = a ∧ b ∈ s.dependencies

/-- A well-formed cycle error: the message is `cycle found: `-joined keys,
consecutive reported keys are edges, and the last reported key repeats an
earlier one. -/
def CycleMsg (g : Graph) (e : String) : Prop :=
  ∃ p x, e = "cycle found: " ++ String.intercalate " -> " p
    ∧ List.Chain' (IsEdge g) p
    ∧ p.getLast? = some x ∧ x ∈ p.dropLast

/-- A walk from `x` whose last vertex repeats an earlier vertex of the walk
(the repetition closes a cycle of the edge set). -/
def CycFrom (g : Graph) (x : String) : Prop :=
  ∃ w, w ≠ [] ∧ List.Chain' (IsEdge g) (x :: w)
    ∧ ∃ t, (x :: w).getLast? = some t ∧ t ∈ (x :: w).dropLast

theorem firstErrorM_error {α ε : Type} (f : α → Except ε Unit) (l : List α)
    (e : ε) (h : firstErrorM f l = .error e) : ∃ a ∈ l, f a = .error e := by
  induction l with
  | nil => simp [firstErrorM] at h
  | cons a l ih =>
    simp only [firstErrorM] at h
    cases hf : f a with
    | error e' =>
      rw [hf] at h
      cases h
      exact ⟨a, List.mem_cons_self a l, hf⟩
    | ok u =>
      rw [hf] at h
      obtain ⟨b, hb, hfb⟩ := ih h
      exact ⟨b, List.mem_cons_of_mem a hb, hfb⟩

theorem firstErrorM_ok {α ε : Type} (f : α → Except ε Unit) (l : List α)
    (h : firstErrorM f l = .ok ()) : ∀ a ∈ l, f a = .ok () := by
  induction l with
  | nil => simp
  | cons a l ih =>
    intro b hb
    simp only [firstErrorM] at h
    cases hf : f a with
    | error e' => rw [hf] at h; cases h
    | ok u =>
      rcases List.mem_cons.mp hb with hba | hbl
      · subst hba
        cases u
        exact hf
      · rw [hf] at h
        exact ih h b hbl

theorem chain'_concat_of_edge (g : Graph) (path : List String) (key c : String)
    (hchain : List.Chain' (IsEdge g) path) (hlast : path.getLast? = some key)
    (hedge : IsEdge g key c) : List.Chain' (IsEdge g) (path ++ [c]) := by
  rw [List.chain'_append]
  refine ⟨hchain, List.chain'_singleton c, ?_⟩
  intro x hx y hy
  rw [hlast] at hx
  simp only [Option.mem_def, Option.some.injEq] at hx
  simp only [List.head?_cons, Option.mem_def, Option.some.injEq] at hy
  subst hx
  subst hy
  exact hedge

theorem visitCycle_error_shape (g : Graph) :
    ∀ (fuel : Nat) (key : String) (path discovered finished : List String)
      (e : String),
      g.visitCycle fuel key path discovered finished = .error e →
      List.Chain' (IsEdge g) path → path.getLast? = some key →
      (∀ x ∈ discovered, x ∈ path) →
      CycleMsg g e := by
  intro fuel
  induction fuel with
  | zero =>
    intro key path discovered finished e h
    simp [Graph.visitCycle] at h
  | succ fuel ih =>
    intro key path discovered finished e h hchain hlast hsub
    simp only [Graph.visitCycle] at h
    cases hfe : firstErrorM (fun c =>
        if c ∈ discovered ++ [key] then
          Except.error ("cycle found: " ++ String.intercalate " -> " (path ++ [c]))
        else if c ∈ finished then Except.ok ()
        else
          match g.visitCycle fuel c (path ++ [c]) (discovered ++ [key]) finished with
          | .error e => Except.error e
          | .ok _ => Except.ok ()) (g.childKeys key) with
    | ok u => rw [hfe] at h; cases h
    | error e1 =>
      rw [hfe] at h
      cases h
      obtain ⟨c, hcmem, hfc⟩ := firstErrorM_error _ _ _ hfe
      have hedge : IsEdge g key c := hcmem
      have hkeypath : key ∈ path := List.mem_of_mem_getLast? hlast
      by_cases hdisc : c ∈ discovered ++ [key]
      · rw [if_pos hdisc] at hfc
        injection hfc with he
        refine ⟨path ++ [c], c, he.symm, ?_, ?_, ?_⟩
        · exact chain'_concat_of_edge g path key c hchain hlast hedge
        · exact List.getLast?_concat path
        · rw [List.dropLast_concat]
          rcases List.mem_append.mp hdisc with hd | hk
          · exact hsub c hd
          · have : c = key := by simpa using hk
            exact this ▸ hkeypath
      · rw [if_neg hdisc] at hfc
        by_cases hfin : c ∈ finished
        · rw [if_pos hfin] at hfc
          cases hfc
        · rw [if_neg hfin] at hfc
          cases hrec : g.visitCycle fuel c (path ++ [c]) (discovered ++ [key]) finished with
          | ok u2 => rw [hrec] at hfc; cases hfc
          | error e2 =>
            rw [hrec] at hfc
            injection hfc with he2
            subst he2
            refine ih c (path ++ [c]) (discovered ++ [key]) finished e2 hrec
              (chain'_concat_of_edge g path key c hchain hlast hedge)
              (List.getLast?_concat path) ?_
            intro x hx
            rcases List.mem_append.mp hx with hd | hk
            · exact List.mem_append_left _ (hsub x hd)
            · have : x = key := by simpa using hk
              exact List.mem_append_left _ (this ▸ hkeypath)

theorem visitCycle_ok_disc (g : Graph) (fuel : Nat) (key : String)
    (path fin d f : List String)
    (h : g.visitCycle fuel key path [] fin = .ok (d, f)) : d = [] := by
  cases fuel with
  | zero =>
    simp only [Graph.visitCycle] at h
    injection h with h'
    injection h' with h1 h2
    exact h1.symm
  | succ fuel =>
    simp only [Graph.visitCycle] at h
    cases hfe : firstErrorM (fun c =>
        if c ∈ [] ++ [key] then
          Except.error ("cycle found: " ++ String.intercalate " -> " (path ++ [c]))
        else if c ∈ fin then Except.ok ()
        else
          match g.visitCycle fuel c (path ++ [c]) ([] ++ [key]) fin with
          | .error e => Except.error e
          | .ok _ => Except.ok ()) (g.childKeys key) with
    | error e1 => rw [hfe] at h; cases h
    | ok u =>
      rw [hfe] at h
      injection h with h'
      injection h' with h1 h2
      rw [← h1]
      simp [removeAll]

theorem hasCyclesAux_some_shape (g : Graph) :
    ∀ (rest : List Vertex) (fin : List String) (e : String),
      g.hasCyclesAux rest [] fin = some e → CycleMsg g e := by
  intro rest
  induction rest with
  | nil => intro fin e h; simp [Graph.hasCyclesAux] at h
  | cons v rest ih =>
    intro fin e h
    simp only [Graph.hasCyclesAux] at h
    by_cases hguard : v.key ∉ ([] : List String) ∧ v.key ∉ fin
    · rw [if_pos hguard] at h
      cases hv : g.visitCycle g.cycleFuel v.key [v.key] [] fin with
      | error e1 =>
        rw [hv] at h
        injection h with h'
        subst h'
        exact visitCycle_error_shape g g.cycleFuel v.key [v.key] [] fin e1 hv
          (List.chain'_singleton v.key) rfl (by intro x hx; cases hx)
      | ok df =>
        obtain ⟨d, f⟩ := df
        rw [hv] at h
        have hd : d = [] := visitCycle_ok_disc g g.cycleFuel v.key [v.key] fin d f hv
        subst hd
        exact ih f e h
    · rw [if_neg hguard] at h
      exact ih fin e h

/-- Any error `HasCycles` reports is a `cycle found` message whose reported
keys are consecutive edges, the last repeating an earlier one. -/
theorem HasCycles_some_shape (g : Graph) (e : String)
    (h : g.HasCycles = some e) : CycleMsg g e :=
  hasCyclesAux_some_shape g g.vertices [] e h

/-- Any error `NewGraph` reports is a cycle error (the `AddEdge` errors are
discarded). -/
theorem NewGraph_error_shape (services : List ServiceConfig)
    (initialStatus : ServiceStatus) (e : String)
    (h : NewGraph services initialStatus = .error e) :
    CycleMsg (newGraphBuilt services initialStatus) e := by
  unfold NewGraph at h
  cases hc : (newGraphBuilt services initialStatus).HasCycles with
  | none => rw [hc] at h; cases h
  | some e1 =>
    rw [hc] at h
    injection h with h'
    subst h'
    exact HasCycles_some_shape _ e1 hc

/-- C1 counterexample: for the service list [a] where a declares the unknown
dependency b, NewGraph does not fail — it returns the graph with vertex a
and no edge, contradicting the claim that the construction aborts with an
error and returns no partial graph. -/
theorem C1_counterexample :
    NewGraph [⟨"a", ["b"]⟩] ServiceStatus.stopped
      = .ok { vertices := [⟨"a", "a", .stopped, [], []⟩] } := by
  rfl

/-- C1 (amended): AddEdge itself reports a descriptive `could not find`
error for an unknown endpoint, but NewGraph discards the AddEdge errors: an
edge to an unknown key is silently skipped, the construction does not abort
for it, and any error NewGraph returns is a cycle error. -/
theorem C1_unknown_edge_skipped :
    (∀ (g : Graph) (source destination : String),
      (g.find? source).isSome → g.find? destination = none →
      g.AddEdge source destination = .error ("could not find " ++ destination))
    ∧ (∀ (g : Graph) (source destination : String),
      g.addEdgeDiscard source destination
        = (match g.AddEdge source destination with
           | .ok g' => g'
           | .error _ => g))
    ∧ (∀ (services : List ServiceConfig) (initialStatus : ServiceStatus) (e : String),
      NewGraph services initialStatus = .error e →
      ∃ rest, e = "cycle found: " ++ rest) := by
  refine ⟨?_, ?_, ?_⟩
  · intro g source destination hsrc hdst
    obtain ⟨v, hv⟩ := Option.isSome_iff_exists.mp hsrc
    unfold Graph.AddEdge
    rw [hv, hdst]
  · intro g source destination
    rfl
  · intro services initialStatus e h
    obtain ⟨p, x, he, -, -, -⟩ := NewGraph_error_shape services initialStatus e h
    exact ⟨String.intercalate " -> " p, he⟩

/-- Witness for C1: the AddEdge error and the error-shape clause at the
cyclic two-service input. -/
theorem C1_unknown_edge_skipped_witness :
    (Graph.mk [NewVertex "a" "a" .stopped]).AddEdge "a" "b"
        = .error ("could not find " ++ "b")
    ∧ (∃ rest, "cycle found: a -> b -> a" = "cycle found: " ++ rest) :=
  ⟨C1_unknown_edge_skipped.1 (Graph.mk [NewVertex "a" "a" .stopped]) "a" "b"
      (by rfl) (by rfl),
   C1_unknown_edge_skipped.2.2 [⟨"a", ["b"]⟩, ⟨"b", ["a"]⟩] ServiceStatus.stopped
      "cycle found: a -> b -> a" (by rfl)⟩

/-! ## Cycle detection: completeness -/

/-- The distinct keys of the graph not yet discovered: the quantity that
shrinks along the DFS recursion. -/
def keysNotIn (g : Graph) (disc : List String) : List String :=
  g.keys.dedup.filter (fun k => k ∉ disc)

theorem IsEdge_mem_keys (g : Graph) (a b : String) (h : IsEdge g a b) :
    a ∈ g.keys := by
  unfold IsEdge Graph.childKeys at h
  cases hf : g.find? a with
  | none => rw [hf] at h; cases h
  | some v =>
    exact (Graph.find?_isSome_iff_mem_keys g a).mp (by rw [hf]; rfl)

theorem keysNotIn_append (g : Graph) (disc : List String) (key : String) :
    keysNotIn g (disc ++ [key])
      = (keysNotIn g disc).filter (fun x => x ≠ key) := by
  unfold keysNotIn
  rw [List.filter_filter]
  apply List.filter_congr
  intro x hx
  by_cases h1 : x ∈ disc
  · simp [h1, List.mem_append]
  · by_cases h2 : x = key
    · simp [h1, h2, List.mem_append]
    · simp [h1, h2, List.mem_append]

theorem keysNotIn_mem (g : Graph) (disc : List String) (key : String)
    (hk : key ∈ g.keys) (hnd : key ∉ disc) : key ∈ keysNotIn g disc := by
  unfold keysNotIn
  rw [List.mem_filter]
  exact ⟨List.mem_dedup.mpr hk, by simpa using hnd⟩

theorem keysNotIn_nodup (g : Graph) (disc : List String) :
    (keysNotIn g disc).Nodup :=
  (List.nodup_dedup g.keys).filter _

theorem keysNotIn_append_length (g : Graph) (disc : List String) (key : String)
    (hk : key ∈ g.keys) (hnd : key ∉ disc) :
    (keysNotIn g (disc ++ [key])).length + 1 ≤ (keysNotIn g disc).length := by
  rw [keysNotIn_append]
  have hmem : key ∈ keysNotIn g disc := keysNotIn_mem g disc key hk hnd
  have herase : (keysNotIn g disc).erase key
      = (keysNotIn g disc).filter (fun x => x != key) :=
    (keysNotIn_nodup g disc).erase_eq_filter key
  have hfe : (keysNotIn g disc).filter (fun x => x ≠ key)
      = (keysNotIn g disc).filter (fun x => x != key) := by
    apply List.filter_congr
    intro x hx
    by_cases h : x = key
    · subst h
      simp
    · have hb : (x != key) = true := bne_iff_ne.mpr h
      simp [h, hb]
  rw [hfe, ← herase, List.length_erase_of_mem hmem]
  have : 1 ≤ (keysNotIn g disc).length := List.length_pos.mpr (by
    intro hnil
    rw [hnil] at hmem
    cases hmem)
  omega

/-- If `visitCycle` returns without error (with sufficient fuel), then no
walk from the visited key that avoids `finished` can end in the discovered
set or revisit an earlier vertex of the walk. -/
theorem visitCycle_ok_no_bad_walk (g : Graph) :
    ∀ (w : List String), w ≠ [] →
    ∀ (fuel : Nat) (key : String) (path disc fin : List String)
      (r : List String × List String),
      g.visitCycle fuel key path disc fin = .ok r →
      (keysNotIn g disc).length ≤ fuel →
      key ∈ g.keys → key ∉ disc →
      List.Chain' (IsEdge g) (key :: w) →
      (∀ x ∈ w, x ∉ fin) →
      (∃ t, (key :: w).getLast? = some t
        ∧ (t ∈ disc ∨ t ∈ (key :: w).dropLast)) →
      False := by
  intro w
  induction w with
  | nil => intro h; exact absurd rfl h
  | cons c w' ih =>
    intro _ fuel key path disc fin r h hbound hkey hkd hchain hfin hbad
    cases fuel with
    | zero =>
      have := keysNotIn_mem g disc key hkey hkd
      have hlen : 1 ≤ (keysNotIn g disc).length := List.length_pos.mpr (by
        intro hnil
        rw [hnil] at this
        cases this)
      omega
    | succ f =>
      simp only [Graph.visitCycle] at h
      cases hfe : firstErrorM (fun c =>
          if c ∈ disc ++ [key] then
            Except.error ("cycle found: " ++ String.intercalate " -> " (path ++ [c]))
          else if c ∈ fin then Except.ok ()
          else
            match g.visitCycle f c (path ++ [c]) (disc ++ [key]) fin with
            | .error e => Except.error e
            | .ok _ => Except.ok ()) (g.childKeys key) with
      | error e1 => rw [hfe] at h; cases h
      | ok u =>
        have hedge : IsEdge g key c := (List.chain'_cons.mp hchain).1
        have hfc := firstErrorM_ok _ _ hfe c hedge
        by_cases hcd : c ∈ disc ++ [key]
        · rw [if_pos hcd] at hfc; cases hfc
        · rw [if_neg hcd] at hfc
          by_cases hcfin : c ∈ fin
          · exact absurd hcfin (hfin c (List.mem_cons_self c w'))
          · rw [if_neg hcfin] at hfc
            cases hrec : g.visitCycle f c (path ++ [c]) (disc ++ [key]) fin with
            | error e1 => rw [hrec] at hfc; cases hfc
            | ok r' =>
              cases w' with
              | nil =>
                obtain ⟨t, hlast, hdisj⟩ := hbad
                have htc : t = c := by
                  have := hlast
                  simp at this
                  exact this.symm
                subst htc
                rcases hdisj with hd | hdl
                · exact hcd (List.mem_append_left _ hd)
                · have : t = key := by simpa using hdl
                  exact hcd (List.mem_append_right _ (by simp [this]))
              | cons c2 w2 =>
                refine ih (by simp) f c (path ++ [c]) (disc ++ [key]) fin r'
                  hrec ?_ ?_ ?_ ?_ ?_ ?_
                · have := keysNotIn_append_length g disc key hkey hkd
                  omega
                · exact IsEdge_mem_keys g c c2
                    (List.chain'_cons.mp (List.chain'_cons.mp hchain).2).1
                · exact hcd
                · exact (List.chain'_cons.mp hchain).2
                · intro x hx
                  exact hfin x (List.mem_cons_of_mem c hx)
                · obtain ⟨t, hlast, hdisj⟩ := hbad
                  refine ⟨t, ?_, ?_⟩
                  · rw [← List.getLast?_cons_cons]
                    exact hlast
                  · rcases hdisj with hd | hdl
                    · exact Or.inl (List.mem_append_left _ hd)
                    · rcases List.mem_cons.mp hdl with hk | hrest
                      · exact Or.inl (List.mem_append_right _ (by simp [hk]))
                      · exact Or.inr hrest

/-- `finished` is good: no cycle is reachable from any finished vertex. -/
def FinGood (g : Graph) (fin : List String) : Prop :=
  ∀ x ∈ fin, ¬ CycFrom g x

theorem getLast?_cons_of_ne (a : String) (l : List String) (h : l ≠ []) :
    (a :: l).getLast? = l.getLast? := by
  cases l with
  | nil => exact absurd rfl h
  | cons b l' => exact List.getLast?_cons_cons

/-- Every vertex on a walk whose last element repeats an earlier one itself
begins such a walk: cut the walk at the vertex and, if the repetition
happens before the cut, go around once more. -/
theorem cycFrom_of_mem_badwalk (g : Graph) :
    ∀ (l : List String) (x : String),
      List.Chain' (IsEdge g) l →
      (∃ t, l.getLast? = some t ∧ t ∈ l.dropLast) →
      x ∈ l → CycFrom g x := by
  intro l x hchain hbad hx
  obtain ⟨t, hlast, hdrop⟩ := hbad
  obtain ⟨P, S, hl⟩ := List.append_of_mem hx
  subst hl
  have hxsuffix : (x :: S) <:+ P ++ x :: S := ⟨P, rfl⟩
  have hxchain : List.Chain' (IsEdge g) (x :: S) := hchain.suffix hxsuffix
  have hxlast : (x :: S).getLast? = some t := by
    rw [← List.getLast?_append_of_ne_nil P (show x :: S ≠ [] by simp)]
    exact hlast
  have hdrop' : t ∈ P ++ (x :: S).dropLast := by
    rw [← List.dropLast_append_of_ne_nil P (show x :: S ≠ [] by simp)]
    exact hdrop
  rcases List.mem_append.mp hdrop' with htP | htS
  · -- the repetition happens inside P: go around the loop once more
    obtain ⟨Q, R1, hP⟩ := List.append_of_mem htP
    subst hP
    have hR : (t :: (R1 ++ x :: S)) <:+ (Q ++ t :: R1) ++ x :: S := by
      refine ⟨Q, ?_⟩
      simp
    have htchain : List.Chain' (IsEdge g) (t :: (R1 ++ x :: S)) := hchain.suffix hR
    -- the remainder after t, a nonempty suffix ending at t
    have hRne : R1 ++ x :: S ≠ [] := by simp
    have hRchain : List.Chain' (IsEdge g) (R1 ++ x :: S) :=
      htchain.suffix ⟨[t], rfl⟩
    have hRlast : (R1 ++ x :: S).getLast? = some t := by
      rw [List.getLast?_append_of_ne_nil R1 (show x :: S ≠ [] by simp)]
      exact hxlast
    -- the first edge out of t
    obtain ⟨r1, R2, hR12⟩ : ∃ r1 R2, R1 ++ x :: S = r1 :: R2 := by
      cases hR0 : R1 ++ x :: S with
      | nil => exact absurd hR0 hRne
      | cons r1 R2 => exact ⟨r1, R2, rfl⟩
    have hedge_t : IsEdge g t r1 := by
      rw [hR12] at htchain
      exact (List.chain'_cons.mp htchain).1
    -- the walk from x: its own suffix, then around the loop again
    refine ⟨S ++ (R1 ++ x :: S), by simp, ?_, t, ?_, ?_⟩
    · have : x :: (S ++ (R1 ++ x :: S)) = (x :: S) ++ (R1 ++ x :: S) := by simp
      rw [this, List.chain'_append]
      refine ⟨hxchain, hRchain, ?_⟩
      intro a ha b hb
      rw [hxlast] at ha
      simp only [Option.mem_def, Option.some.injEq] at ha
      subst ha
      rw [hR12] at hb
      simp only [List.head?_cons, Option.mem_def, Option.some.injEq] at hb
      subst hb
      exact hedge_t
    · have : x :: (S ++ (R1 ++ x :: S)) = (x :: S) ++ (R1 ++ x :: S) := by simp
      rw [this, List.getLast?_append_of_ne_nil _ hRne]
      exact hRlast
    · have : x :: (S ++ (R1 ++ x :: S)) = (x :: S) ++ (R1 ++ x :: S) := by simp
      rw [this, List.dropLast_append_of_ne_nil _ hRne]
      exact List.mem_append_left _ (List.mem_of_mem_getLast? hxlast)
  · -- the repetition is inside the cut walk already
    have hSne : S ≠ [] := by
      intro hS
      subst hS
      simp at htS
    refine ⟨S, hSne, hxchain, t, hxlast, ?_⟩
    exact htS

/-- From a repetition-closing walk and a good finished set, extract a
finished-avoiding repetition-closing walk. -/
theorem cycFrom_avoiding (g : Graph) (fin : List String) (hfin : FinGood g fin)
    (key : String) (hc : CycFrom g key) :
    ∃ w, w ≠ [] ∧ List.Chain' (IsEdge g) (key :: w) ∧ (∀ x ∈ w, x ∉ fin)
      ∧ ∃ t, (key :: w).getLast? = some t ∧ t ∈ (key :: w).dropLast := by
  obtain ⟨w, hne, hchain, t, hlast, hdrop⟩ := hc
  by_cases havoid : ∀ x ∈ w, x ∉ fin
  · exact ⟨w, hne, hchain, havoid, t, hlast, hdrop⟩
  · push_neg at havoid
    obtain ⟨x, hxw, hxfin⟩ := havoid
    exact absurd (cycFrom_of_mem_badwalk g (key :: w) x hchain ⟨t, hlast, hdrop⟩
      (List.mem_cons_of_mem _ hxw)) (hfin x hxfin)

theorem visitCycle_ok_fin (g : Graph) (fuel : Nat) (key : String)
    (path disc fin d f : List String)
    (h : g.visitCycle (Nat.succ fuel) key path disc fin = .ok (d, f)) :
    f = fin ++ [key] := by
  simp only [Graph.visitCycle] at h
  cases hfe : firstErrorM (fun c =>
      if c ∈ disc ++ [key] then
        Except.error ("cycle found: " ++ String.intercalate " -> " (path ++ [c]))
      else if c ∈ fin then Except.ok ()
      else
        match g.visitCycle fuel c (path ++ [c]) (disc ++ [key]) fin with
        | .error e => Except.error e
        | .ok _ => Except.ok ()) (g.childKeys key) with
  | error e1 => rw [hfe] at h; cases h
  | ok u =>
    rw [hfe] at h
    injection h with h'
    injection h' with h1 h2
    exact h2.symm

theorem keysNotIn_nil_le (g : Graph) :
    (keysNotIn g []).length ≤ g.vertices.length := by
  unfold keysNotIn
  calc (g.keys.dedup.filter (fun k => k ∉ ([] : List String))).length
      ≤ g.keys.dedup.length := List.length_filter_le _ _
    _ ≤ g.keys.length := (List.dedup_sublist g.keys).length_le
    _ = g.vertices.length := List.length_map _ _

/-- If the walk predicate holds anywhere, its start vertex is a key. -/
theorem cycFrom_mem_keys (g : Graph) (x : String) (h : CycFrom g x) :
    x ∈ g.keys := by
  obtain ⟨w, hne, hchain, -⟩ := h
  cases w with
  | nil => exact absurd rfl hne
  | cons c w' => exact IsEdge_mem_keys g x c (List.chain'_cons.mp hchain).1

theorem hasCyclesAux_none_no_cycle (g : Graph) :
    ∀ (rest : List Vertex) (fin : List String),
      FinGood g fin →
      g.hasCyclesAux rest [] fin = none →
      ∀ v ∈ rest, ¬ CycFrom g v.key := by
  intro rest
  induction rest with
  | nil => intro fin _ _ v hv; cases hv
  | cons v0 rest ih =>
    intro fin hfin h v hv
    simp only [Graph.hasCyclesAux] at h
    by_cases hguard : v0.key ∉ ([] : List String) ∧ v0.key ∉ fin
    · rw [if_pos hguard] at h
      cases hvc : g.visitCycle g.cycleFuel v0.key [v0.key] [] fin with
      | error e1 => rw [hvc] at h; cases h
      | ok df =>
        obtain ⟨d, f⟩ := df
        rw [hvc] at h
        have hd : d = [] := visitCycle_ok_disc g g.cycleFuel v0.key [v0.key] fin d f hvc
        have hf : f = fin ++ [v0.key] := visitCycle_ok_fin g g.vertices.length v0.key
          [v0.key] [] fin d f hvc
        subst hd
        subst hf
        have hnocyc : ¬ CycFrom g v0.key := by
          intro hcf
          have hk : v0.key ∈ g.keys := cycFrom_mem_keys g v0.key hcf
          obtain ⟨w, hne, hchain, havoid, t, hlast, hdrop⟩ :=
            cycFrom_avoiding g fin hfin v0.key hcf
          exact visitCycle_ok_no_bad_walk g w hne g.cycleFuel v0.key [v0.key] [] fin
            ([], fin ++ [v0.key]) hvc
            (le_trans (keysNotIn_nil_le g) (Nat.le_succ _))
            hk (by intro hx; cases hx) hchain havoid
            ⟨t, hlast, Or.inr hdrop⟩
        have hfin' : FinGood g (fin ++ [v0.key]) := by
          intro x hx
          rcases List.mem_append.mp hx with hx1 | hx2
          · exact hfin x hx1
          · have : x = v0.key := by simpa using hx2
            exact this ▸ hnocyc
        rcases List.mem_cons.mp hv with hv0 | hvrest
        · exact hv0 ▸ hnocyc
        · exact ih (fin ++ [v0.key]) hfin' h v hvrest
    · rw [if_neg hguard] at h
      have hv0fin : v0.key ∈ fin := by
        by_contra hvf
        exact hguard (And.intro (List.not_mem_nil v0.key) hvf)
      rcases List.mem_cons.mp hv with hv0 | hvrest
      · exact hv0 ▸ hfin v0.key hv0fin
      · exact ih fin hfin h v hvrest

/-- Completeness of cycle detection: if `HasCycles` reports nothing, no
vertex starts a repetition-closing walk. -/
theorem HasCycles_none_no_cycle (g : Graph) (h : g.HasCycles = none) :
    ∀ x, ¬ CycFrom g x := by
  intro x hcf
  have hxk : x ∈ g.keys := cycFrom_mem_keys g x hcf
  obtain ⟨v, hv, hvk⟩ := List.mem_map.mp hxk
  have := hasCyclesAux_none_no_cycle g g.vertices [] (by intro y hy; cases hy) h v hv
  exact this (hvk ▸ hcf)

/-! ## NewGraph: built edges are exactly the declared edges between known
keys -/

theorem find?_map_keypreserving (l : List Vertex) (f : Vertex → Vertex)
    (hf : ∀ v, (f v).key = v.key) (k : String) :
    (l.map f).find? (fun v => v.key == k) = (l.find? (fun v => v.key == k)).map f := by
  induction l with
  | nil => rfl
  | cons v l ih =>
    by_cases h : (v.key == k) = true
    · have h2 : ((f v).key == k) = true := by rw [hf v]; exact h
      simp [List.find?_cons, h, h2]
    · have h2 : ((f v).key == k) = false := by
        rw [hf v]
        cases hh : (v.key == k)
        · rfl
        · exact absurd hh h
      simp [List.find?_cons, h, h2, ih]

theorem map_keys_keypreserving (l : List Vertex) (f : Vertex → Vertex)
    (hf : ∀ v, (f v).key = v.key) :
    (l.map f).map (fun v => v.key) = l.map (fun v => v.key) := by
  rw [List.map_map]
  apply List.map_congr_left
  intro v _
  exact hf v

theorem AddVertex_mem_keys (g : Graph) (key service : String)
    (st : ServiceStatus) (k : String) :
    k ∈ (g.AddVertex key service st).keys ↔ k ∈ g.keys ∨ k = key := by
  unfold Graph.AddVertex
  by_cases hany : g.vertices.any (fun v => v.key == key) = true
  · rw [if_pos hany]
    have hkeys : ({ vertices := g.vertices.map (fun v =>
        if v.key == key then NewVertex key service st else v) } : Graph).keys = g.keys := by
      unfold Graph.keys
      apply map_keys_keypreserving
      intro v
      by_cases hv : (v.key == key) = true
      · simp only [hv, if_true, NewVertex]
        exact (beq_iff_eq.mp hv).symm
      · simp [hv]
    rw [hkeys]
    constructor
    · exact Or.inl
    · rintro (h | h)
      · exact h
      · subst h
        obtain ⟨v, hv, hvk⟩ := List.any_eq_true.mp hany
        exact List.mem_map.mpr ⟨v, hv, beq_iff_eq.mp hvk⟩
  · rw [if_neg hany]
    unfold Graph.keys
    simp [NewVertex, eq_comm]

theorem childKeys_map (g : Graph) (f : Vertex → Vertex)
    (hf : ∀ v, (f v).key = v.key) (k : String) :
    Graph.childKeys { vertices := g.vertices.map f } k
      = (match g.find? k with
         | some v => (f v).children
         | none => []) := by
  unfold Graph.childKeys Graph.find?
  rw [show (List.find? (fun v => v.key == k) (g.vertices.map f))
      = (g.vertices.find? (fun v => v.key == k)).map f
    from find?_map_keypreserving g.vertices f hf k]
  cases g.vertices.find? (fun v => v.key == k) <;> rfl

theorem addChildFn_key (s d : String) (v : Vertex) :
    (addChildFn s d v).key = v.key := by
  unfold addChildFn
  by_cases h : (v.key == s) = true <;> simp [h]

theorem addParentFn_key (s d : String) (v : Vertex) :
    (addParentFn s d v).key = v.key := by
  unfold addParentFn
  by_cases h : (v.key == d) = true <;> simp [h]

theorem addParentFn_children (s d : String) (v : Vertex) :
    (addParentFn s d v).children = v.children := by
  unfold addParentFn
  by_cases h : (v.key == d) = true <;> simp [h]

theorem AddEdge_ok_shape (g : Graph) (s d : String) (g' : Graph)
    (h : g.AddEdge s d = .ok g') :
    g'.keys = g.keys
    ∧ ∀ a b, IsEdge g' a b ↔ (IsEdge g a b ∨ (a = s ∧ b = d)) := by
  unfold Graph.AddEdge at h
  cases hs : g.find? s with
  | none => rw [hs] at h; cases h
  | some sv =>
    rw [hs] at h
    cases hd : g.find? d with
    | none => rw [hd] at h; cases h
    | some dv =>
      rw [hd] at h
      simp only at h
      by_cases hconn : d ∈ sv.children
      · rw [if_pos hconn] at h
        injection h with h'
        subst h'
        refine ⟨rfl, ?_⟩
        intro a b
        constructor
        · exact Or.inl
        · rintro (hab | ⟨ha, hb⟩)
          · exact hab
          · subst ha
            subst hb
            unfold IsEdge Graph.childKeys
            rw [hs]
            exact hconn
      · rw [if_neg hconn] at h
        injection h with h'
        subst h'
        constructor
        · show (Graph.mk ((g.vertices.map (addChildFn s d)).map (addParentFn s d))).keys
            = g.keys
          unfold Graph.keys
          rw [map_keys_keypreserving _ _ (addParentFn_key s d),
            map_keys_keypreserving _ _ (addChildFn_key s d)]
        · intro a b
          have hck : Graph.childKeys
              (Graph.mk ((g.vertices.map (addChildFn s d)).map (addParentFn s d))) a
              = (match g.find? a with
                 | some v => (addChildFn s d v).children
                 | none => []) := by
            rw [childKeys_map (Graph.mk (g.vertices.map (addChildFn s d)))
              _ (addParentFn_key s d) a]
            show (match (Graph.mk (g.vertices.map (addChildFn s d))).find? a with
                | some v => (addParentFn s d v).children
                | none => []) = _
            unfold Graph.find?
            rw [show (List.find? (fun v => v.key == a) (g.vertices.map (addChildFn s d)))
                = (g.vertices.find? (fun v => v.key == a)).map (addChildFn s d)
              from find?_map_keypreserving g.vertices _ (addChildFn_key s d) a]
            cases hfa : g.vertices.find? (fun v => v.key == a) with
            | none => rfl
            | some va =>
              simp only [Option.map_some']
              exact addParentFn_children s d _
          show b ∈ Graph.childKeys _ a ↔ _
          rw [hck]
          unfold IsEdge Graph.childKeys Graph.find?
          cases hfa : g.vertices.find? (fun v => v.key == a) with
          | none =>
            constructor
            · intro hb
              cases hb
            · rintro (hb | ⟨ha, hb⟩)
              · exact hb
              · subst ha
                unfold Graph.find? at hs
                rw [hfa] at hs
                cases hs
          | some va =>
            have hvak : va.key = a := by
              have h0 := List.find?_some hfa
              exact beq_iff_eq.mp h0
            unfold addChildFn
            by_cases hva_s : (va.key == s) = true
            · have has : a = s := by rw [← hvak]; exact beq_iff_eq.mp hva_s
              simp only [if_pos hva_s]
              constructor
              · intro hb
                rcases List.mem_append.mp hb with h1 | h1
                · exact Or.inl h1
                · exact Or.inr ⟨has, by simpa using h1⟩
              · rintro (hb | ⟨ha, hb⟩)
                · exact List.mem_append_left _ hb
                · subst hb
                  exact List.mem_append_right _ (by simp)
            · have has : ¬ a = s := by rw [← hvak]; simpa using hva_s
              simp only [if_neg hva_s]
              constructor
              · exact Or.inl
              · rintro (hb | ⟨ha, hb⟩)
                · exact hb
                · exact absurd ha has

theorem AddEdge_ok_mem (g : Graph) (s d : String) (g' : Graph)
    (h : g.AddEdge s d = .ok g') : s ∈ g.keys ∧ d ∈ g.keys := by
  unfold Graph.AddEdge at h
  cases hs : g.find? s with
  | none => rw [hs] at h; cases h
  | some sv =>
    rw [hs] at h
    cases hd : g.find? d with
    | none => rw [hd] at h; cases h
    | some dv =>
      refine ⟨(Graph.find?_isSome_iff_mem_keys g s).mp (by rw [hs]; rfl),
        (Graph.find?_isSome_iff_mem_keys g d).mp (by rw [hd]; rfl)⟩

theorem addEdgeDiscard_keys (g : Graph) (s d : String) :
    (g.addEdgeDiscard s d).keys = g.keys := by
  unfold Graph.addEdgeDiscard
  cases h : g.AddEdge s d with
  | error e => rfl
  | ok g' => exact (AddEdge_ok_shape g s d g' h).1

theorem addEdgeDiscard_isEdge (g : Graph) (s d a b : String) :
    IsEdge (g.addEdgeDiscard s d) a b
      ↔ (IsEdge g a b ∨ (a = s ∧ b = d ∧ s ∈ g.keys ∧ d ∈ g.keys)) := by
  unfold Graph.addEdgeDiscard
  cases h : g.AddEdge s d with
  | error e =>
    constructor
    · exact Or.inl
    · rintro (hab | ⟨ha, hb, hsk, hdk⟩)
      · exact hab
      · exfalso
        unfold Graph.AddEdge at h
        obtain ⟨sv, hsv⟩ := Option.isSome_iff_exists.mp
          ((Graph.find?_isSome_iff_mem_keys g s).mpr hsk)
        obtain ⟨dv, hdv⟩ := Option.isSome_iff_exists.mp
          ((Graph.find?_isSome_iff_mem_keys g d).mpr hdk)
        rw [hsv, hdv] at h
        simp only at h
        by_cases hconn : d ∈ sv.children
        · rw [if_pos hconn] at h
          cases h
        · rw [if_neg hconn] at h
          cases h
  | ok g' =>
    have hshape := AddEdge_ok_shape g s d g' h
    have hmem := AddEdge_ok_mem g s d g' h
    rw [hshape.2 a b]
    constructor
    · rintro (hab | ⟨ha, hb⟩)
      · exact Or.inl hab
      · exact Or.inr ⟨ha, hb, hmem.1, hmem.2⟩
    · rintro (hab | ⟨ha, hb, -, -⟩)
      · exact Or.inl hab
      · exact Or.inr ⟨ha, hb⟩

theorem foldl_deps_keys (src : String) (deps : List String) :
    ∀ (g : Graph),
      (deps.foldl (fun g name => g.addEdgeDiscard src name) g).keys = g.keys := by
  induction deps with
  | nil => intro g; rfl
  | cons d deps ih =>
    intro g
    rw [List.foldl_cons, ih, addEdgeDiscard_keys]

theorem foldl_deps_isEdge (src : String) (deps : List String) :
    ∀ (g : Graph) (a b : String),
      IsEdge (deps.foldl (fun g name => g.addEdgeDiscard src name) g) a b
        ↔ (IsEdge g a b
          ∨ (a = src ∧ b ∈ deps ∧ src ∈ g.keys ∧ b ∈ g.keys)) := by
  induction deps with
  | nil =>
    intro g a b
    simp
  | cons d deps ih =>
    intro g a b
    rw [List.foldl_cons, ih, addEdgeDiscard_isEdge, addEdgeDiscard_keys]
    constructor
    · rintro ((hab | ⟨ha, hb, hsk, hdk⟩) | ⟨ha, hb, hsk, hbk⟩)
      · exact Or.inl hab
      · exact Or.inr ⟨ha, by simp [hb], hsk, hb ▸ hdk⟩
      · exact Or.inr ⟨ha, List.mem_cons_of_mem d hb, hsk, hbk⟩
    · rintro (hab | ⟨ha, hb, hsk, hbk⟩)
      · exact Or.inl (Or.inl hab)
      · rcases List.mem_cons.mp hb with hbd | hbdeps
        · exact Or.inl (Or.inr ⟨ha, hbd, hsk, hbd ▸ hbk⟩)
        · exact Or.inr ⟨ha, hbdeps, hsk, hbk⟩

theorem foldl_services_keys (services : List ServiceConfig) :
    ∀ (g : Graph),
      (services.foldl (fun g s =>
        s.dependencies.foldl (fun g name => g.addEdgeDiscard s.name name) g) g).keys
        = g.keys := by
  induction services with
  | nil => intro g; rfl
  | cons s services ih =>
    intro g
    rw [List.foldl_cons, ih, foldl_deps_keys]

theorem foldl_services_isEdge (services : List ServiceConfig) :
    ∀ (g : Graph) (a b : String),
      IsEdge (services.foldl (fun g s =>
          s.dependencies.foldl (fun g name => g.addEdgeDiscard s.name name) g) g) a b
        ↔ (IsEdge g a b
          ∨ (∃ s ∈ services, a = s.name ∧ b ∈ s.dependencies
              ∧ s.name ∈ g.keys ∧ b ∈ g.keys)) := by
  induction services with
  | nil =>
    intro g a b
    simp
  | cons s services ih =>
    intro g a b
    rw [List.foldl_cons, ih, foldl_deps_isEdge, foldl_deps_keys]
    constructor
    · rintro ((hab | ⟨ha, hb, hsk, hbk⟩) | ⟨s2, hs2, ha, hb, hsk, hbk⟩)
      · exact Or.inl hab
      · exact Or.inr ⟨s, List.mem_cons_self s services, ha, hb, hsk, hbk⟩
      · exact Or.inr ⟨s2, List.mem_cons_of_mem s hs2, ha, hb, hsk, hbk⟩
    · rintro (hab | ⟨s2, hs2, ha, hb, hsk, hbk⟩)
      · exact Or.inl (Or.inl hab)
      · rcases List.mem_cons.mp hs2 with hss | hs2in
        · subst hss
          exact Or.inl (Or.inr ⟨ha, hb, hsk, hbk⟩)
        · exact Or.inr ⟨s2, hs2in, ha, hb, hsk, hbk⟩

theorem foldl_addVertex_mem_keys (st : ServiceStatus)
    (services : List ServiceConfig) :
    ∀ (g : Graph) (k : String),
      k ∈ (services.foldl (fun g s => g.AddVertex s.name s.name st) g).keys
        ↔ (k ∈ g.keys ∨ ∃ s ∈ services, s.name = k) := by
  induction services with
  | nil =>
    intro g k
    simp
  | cons s services ih =>
    intro g k
    rw [List.foldl_cons, ih, AddVertex_mem_keys]
    constructor
    · rintro ((hk | hk) | ⟨s2, hs2, hk⟩)
      · exact Or.inl hk
      · exact Or.inr ⟨s, List.mem_cons_self s services, hk.symm⟩
      · exact Or.inr ⟨s2, List.mem_cons_of_mem s hs2, hk⟩
    · rintro (hk | ⟨s2, hs2, hk⟩)
      · exact Or.inl (Or.inl hk)
      · rcases List.mem_cons.mp hs2 with hss | hs2in
        · subst hss
          exact Or.inl (Or.inr hk.symm)
        · exact Or.inr ⟨s2, hs2in, hk⟩

theorem newGraphVertices_mem_keys (services : List ServiceConfig)
    (st : ServiceStatus) (k : String) :
    k ∈ (newGraphVertices services st).keys ↔ ∃ s ∈ services, s.name = k := by
  unfold newGraphVertices
  rw [foldl_addVertex_mem_keys]
  simp [Graph.keys]

theorem foldl_addVertex_no_children (st : ServiceStatus)
    (services : List ServiceConfig) :
    ∀ (g : Graph), (∀ v ∈ g.vertices, v.children = []) →
      ∀ v ∈ (services.foldl (fun g s => g.AddVertex s.name s.name st) g).vertices,
        v.children = [] := by
  induction services with
  | nil =>
    intro g hg v hv
    exact hg v hv
  | cons s services ih =>
    intro g hg
    rw [List.foldl_cons]
    refine ih _ ?_
    intro v hv
    unfold Graph.AddVertex at hv
    by_cases hany : g.vertices.any (fun w => w.key == s.name) = true
    · rw [if_pos hany] at hv
      simp only at hv
      obtain ⟨w, hw, hwv⟩ := List.mem_map.mp hv
      by_cases hws : (w.key == s.name) = true
      · rw [if_pos hws] at hwv
        rw [← hwv]
        rfl
      · rw [if_neg hws] at hwv
        exact hwv ▸ hg w hw
    · rw [if_neg hany] at hv
      simp only at hv
      rcases List.mem_append.mp hv with hv1 | hv2
      · exact hg v hv1
      · have : v = NewVertex s.name s.name st := by simpa using hv2
        rw [this]
        rfl

theorem newGraphVertices_no_edge (services : List ServiceConfig)
    (st : ServiceStatus) (a b : String) :
    ¬ IsEdge (newGraphVertices services st) a b := by
  intro h
  unfold IsEdge Graph.childKeys at h
  cases hfa : (newGraphVertices services st).find? a with
  | none => rw [hfa] at h; cases h
  | some va =>
    rw [hfa] at h
    have hva : va ∈ (newGraphVertices services st).vertices :=
      List.mem_of_find?_eq_some hfa
    have hch : va.children = [] :=
      foldl_addVertex_no_children st services { vertices := [] }
        (by intro v hv; cases hv) va hva
    simp only [] at h
    rw [hch] at h
    cases h

/-- The built graph's edges are exactly the declared edges whose target is a
known service name (the source necessarily is one). -/
theorem newGraphBuilt_isEdge (services : List ServiceConfig)
    (st : ServiceStatus) (a b : String) :
    IsEdge (newGraphBuilt services st) a b
      ↔ (DeclEdge services a b ∧ ∃ s2 ∈ services, s2.name = b) := by
  unfold newGraphBuilt
  rw [foldl_services_isEdge]
  constructor
  · rintro (hab | ⟨s, hs, ha, hb, hsk, hbk⟩)
    · exact absurd hab (newGraphVertices_no_edge services st a b)
    · exact ⟨⟨s, hs, ha.symm, hb⟩, (newGraphVertices_mem_keys services st b).mp hbk⟩
  · rintro ⟨⟨s, hs, hname, hdep⟩, hbk⟩
    refine Or.inr ⟨s, hs, hname.symm, hdep, ?_, ?_⟩
    · exact (newGraphVertices_mem_keys services st s.name).mpr ⟨s, hs, rfl⟩
    · exact (newGraphVertices_mem_keys services st b).mpr hbk

/-- A directed cycle in the declared dependency edges of the input: a closed
nonempty walk. -/
def HasDeclCycle (services : List ServiceConfig) : Prop :=
  ∃ x w, w ≠ [] ∧ List.Chain' (DeclEdge services) (x :: w)
    ∧ (x :: w).getLast? = some x

instance (services : List ServiceConfig) (a b : String) :
    Decidable (DeclEdge services a b) :=
  inferInstanceAs (Decidable (∃ s ∈ services, s.name = a ∧ b ∈ s.dependencies))

theorem chain'_dropLast_rel {α : Type} {R : α → α → Prop} :
    ∀ (l : List α), List.Chain' R l → ∀ y ∈ l.dropLast, ∃ z, R y z := by
  intro l
  induction l with
  | nil => intro _ y hy; cases hy
  | cons a l ih =>
    intro h y hy
    cases l with
    | nil => simp at hy
    | cons b l2 =>
      have hd : (a :: b :: l2).dropLast = a :: (b :: l2).dropLast := rfl
      rw [hd] at hy
      rcases List.mem_cons.mp hy with hya | hyd
      · exact ⟨b, hya ▸ (List.chain'_cons.mp h).1⟩
      · exact ih (List.chain'_cons.mp h).2 y hyd

theorem declCycle_names (services : List ServiceConfig) (x : String)
    (w : List String) (hne : w ≠ [])
    (hchain : List.Chain' (DeclEdge services) (x :: w))
    (hlast : (x :: w).getLast? = some x) :
    ∀ y ∈ x :: w, ∃ s ∈ services, s.name = y := by
  intro y hy
  have hlne : (x :: w) ≠ [] := by simp
  have hsplit : (x :: w).dropLast ++ [(x :: w).getLast hlne] = x :: w :=
    List.dropLast_concat_getLast hlne
  have hxlast : (x :: w).getLast hlne = x := by
    have := List.getLast?_eq_getLast (x :: w) hlne
    rw [hlast] at this
    exact (Option.some.injEq _ _).mp this.symm
  rw [← hsplit] at hy
  rcases List.mem_append.mp hy with hyd | hyl
  · obtain ⟨z, hz⟩ := chain'_dropLast_rel (x :: w) hchain y hyd
    obtain ⟨s, hs, hname, -⟩ := hz
    exact ⟨s, hs, hname⟩
  · have hyx : y = x := by
      rw [hxlast] at hyl
      simpa using hyl
    subst hyx
    cases w with
    | nil => exact absurd rfl hne
    | cons c w2 =>
      obtain ⟨s, hs, hname, -⟩ := (List.chain'_cons.mp hchain).1
      exact ⟨s, hs, hname⟩

theorem chain_decl_to_built (services : List ServiceConfig)
    (st : ServiceStatus) :
    ∀ (l : List String), List.Chain' (DeclEdge services) l →
      (∀ y ∈ l, ∃ s ∈ services, s.name = y) →
      List.Chain' (IsEdge (newGraphBuilt services st)) l := by
  intro l
  induction l with
  | nil => intro _ _; exact List.chain'_nil
  | cons a l ih =>
    intro h hall
    cases l with
    | nil => exact List.chain'_singleton a
    | cons b l2 =>
      rw [List.chain'_cons] at h
      rw [List.chain'_cons]
      refine ⟨?_, ih h.2 (fun y hy => hall y (List.mem_cons_of_mem a hy))⟩
      exact (newGraphBuilt_isEdge services st a b).mpr
        ⟨h.1, hall b (List.mem_cons_of_mem a (List.mem_cons_self b l2))⟩

/-- C3 (amended): for every input whose declared dependency edges contain a
directed cycle, NewGraph returns an error of the form
`cycle found: A -> B -> ... -> X`, the reported consecutive keys are edges
of the original edge set, and the last reported key repeats an earlier
reported key (the suffix of the reported path from that earlier occurrence
is a cycle); the first and last reported keys need not be equal. -/
theorem C3_cycle_detected (services : List ServiceConfig)
    (st : ServiceStatus) (hcyc : HasDeclCycle services) :
    ∃ e p t, NewGraph services st = .error e
      ∧ e = "cycle found: " ++ String.intercalate " -> " p
      ∧ List.Chain' (DeclEdge services) p
      ∧ p.getLast? = some t ∧ t ∈ p.dropLast := by
  obtain ⟨x, w, hne, hchain, hlast⟩ := hcyc
  have hnames := declCycle_names services x w hne hchain hlast
  have hchainb : List.Chain' (IsEdge (newGraphBuilt services st)) (x :: w) :=
    chain_decl_to_built services st (x :: w) hchain hnames
  have hdrop : x ∈ (x :: w).dropLast := by
    cases w with
    | nil => exact absurd rfl hne
    | cons c w2 => exact List.mem_cons_self x _
  have hcf : CycFrom (newGraphBuilt services st) x :=
    ⟨w, hne, hchainb, x, hlast, hdrop⟩
  cases hhc : (newGraphBuilt services st).HasCycles with
  | none => exact absurd hcf (HasCycles_none_no_cycle _ hhc x)
  | some e =>
    obtain ⟨p, t, he, hpchain, hplast, hpdrop⟩ :=
      HasCycles_some_shape (newGraphBuilt services st) e hhc
    refine ⟨e, p, t, ?_, he, ?_, hplast, hpdrop⟩
    · unfold NewGraph
      rw [hhc]
    · refine List.Chain'.imp ?_ hpchain
      intro a b hab
      exact ((newGraphBuilt_isEdge services st a b).mp hab).1

/-- C3 counterexample: on the input a→b, b→c, c→b the reported cycle message
is `cycle found: a -> b -> c -> b`, whose first and last reported keys
differ — the claim's `A -> B -> ... -> A` shape with equal first and last
keys does not hold. -/
theorem C3_counterexample :
    NewGraph [⟨"a", ["b"]⟩, ⟨"b", ["c"]⟩, ⟨"c", ["b"]⟩] ServiceStatus.stopped
      = .error ("cycle found: "
          ++ String.intercalate " -> " ["a", "b", "c", "b"])
    ∧ (["a", "b", "c", "b"] : List String).head?
        ≠ (["a", "b", "c", "b"] : List String).getLast? := by
  constructor
  · rfl
  · decide

/-- Witness for C3: the amended theorem applied to the concrete cyclic input
a→b, b→c, c→b. -/
theorem C3_cycle_detected_witness :
    ∃ e p t, NewGraph [⟨"a", ["b"]⟩, ⟨"b", ["c"]⟩, ⟨"c", ["b"]⟩]
        ServiceStatus.stopped = .error e
      ∧ e = "cycle found: " ++ String.intercalate " -> " p
      ∧ List.Chain' (DeclEdge [⟨"a", ["b"]⟩, ⟨"b", ["c"]⟩, ⟨"c", ["b"]⟩]) p
      ∧ p.getLast? = some t ∧ t ∈ p.dropLast :=
  C3_cycle_detected [⟨"a", ["b"]⟩, ⟨"b", ["c"]⟩, ⟨"c", ["b"]⟩]
    ServiceStatus.stopped
    ⟨"b", ["c", "b"], by decide,
      List.chain'_cons.mpr
        ⟨⟨⟨"b", ["c"]⟩, by decide, rfl, by decide⟩,
          List.chain'_cons.mpr
            ⟨⟨⟨"c", ["b"]⟩, by decide, rfl, by decide⟩,
              List.chain'_singleton "b"⟩⟩,
      by decide⟩

/-! ## Traversal: graph-operation lemmas -/

theorem setStatusFn_key (k0 : String) (st : ServiceStatus) (v : Vertex) :
    (setStatusFn k0 st v).key = v.key := by
  unfold setStatusFn
  by_cases h : (v.key == k0) = true <;> simp [h]

theorem setStatusFn_children (k0 : String) (st : ServiceStatus) (v : Vertex) :
    (setStatusFn k0 st v).children = v.children := by
  unfold setStatusFn
  by_cases h : (v.key == k0) = true <;> simp [h]

theorem setStatusFn_parents (k0 : String) (st : ServiceStatus) (v : Vertex) :
    (setStatusFn k0 st v).parents = v.parents := by
  unfold setStatusFn
  by_cases h : (v.key == k0) = true <;> simp [h]

theorem updGetD_vertices (g : Graph) (k0 : String) (st : ServiceStatus) :
    ((g.UpdateStatus k0 st).getD g).vertices
      = g.vertices.map (setStatusFn k0 st) := by
  unfold Graph.UpdateStatus
  cases h0 : g.find? k0 with
  | some v => rfl
  | none =>
    show g.vertices = _
    conv_lhs => rw [← List.map_id g.vertices]
    apply List.map_congr_left
    intro v hv
    have hne := List.find?_eq_none.mp h0 v hv
    show v = setStatusFn k0 st v
    unfold setStatusFn
    rw [if_neg hne]

theorem updGetD_find? (g : Graph) (k0 : String) (st : ServiceStatus)
    (k : String) :
    ((g.UpdateStatus k0 st).getD g).find? k
      = (g.find? k).map (setStatusFn k0 st) := by
  show (Graph.find? _ k) = _
  unfold Graph.find?
  rw [updGetD_vertices]
  exact find?_map_keypreserving g.vertices _ (setStatusFn_key k0 st) k

theorem updGetD_keys (g : Graph) (k0 : String) (st : ServiceStatus) :
    ((g.UpdateStatus k0 st).getD g).keys = g.keys := by
  unfold Graph.keys
  rw [updGetD_vertices]
  exact map_keys_keypreserving g.vertices _ (setStatusFn_key k0 st)

theorem updGetD_childKeys (g : Graph) (k0 : String) (st : ServiceStatus)
    (k : String) :
    ((g.UpdateStatus k0 st).getD g).childKeys k = g.childKeys k := by
  unfold Graph.childKeys
  rw [updGetD_find?]
  cases g.find? k with
  | none => rfl
  | some v =>
    simp only [Option.map_some']
    exact setStatusFn_children k0 st v

theorem updGetD_parentKeys (g : Graph) (k0 : String) (st : ServiceStatus)
    (k : String) :
    ((g.UpdateStatus k0 st).getD g).parentKeys k = g.parentKeys k := by
  unfold Graph.parentKeys
  rw [updGetD_find?]
  cases g.find? k with
  | none => rfl
  | some v =>
    simp only [Option.map_some']
    exact setStatusFn_parents k0 st v

theorem target_ne_skip (d : TraversalDirection) :
    targetServiceStatus d ≠ adjacentServiceStatusToSkip d := by
  cases d <;> decide

theorem status_two_valued (st : ServiceStatus) (d : TraversalDirection)
    (h : st ≠ adjacentServiceStatusToSkip d) : st = targetServiceStatus d := by
  cases d <;> cases st <;> first | rfl | exact absurd rfl h

/-- Emptiness of the readiness filter, characterised over the gating
neighbors. -/
theorem filterAdjacent_some_nil_iff (d : TraversalDirection) (g : Graph)
    (k : String) (st : ServiceStatus) :
    filterAdjacentByStatus d g k st = some []
      ↔ ((g.find? k).isSome
        ∧ ∀ c ∈ gatingKeys d g k, ∀ cv, g.find? c = some cv → cv.status ≠ st) := by
  cases d with
  | up =>
    show g.FilterChildren k st = some [] ↔
      ((g.find? k).isSome ∧ ∀ c ∈ g.childKeys k, ∀ cv, g.find? c = some cv → cv.status ≠ st)
    unfold Graph.FilterChildren Graph.childKeys
    cases hf : g.find? k with
    | none => simp
    | some v =>
      simp only [Option.isSome_some, true_and, Option.some.injEq]
      rw [List.filter_eq_nil_iff]
      constructor
      · intro h c hc cv hcv hst
        exact h cv (List.mem_filterMap.mpr ⟨c, hc, hcv⟩) (by simp [hst])
      · intro h cv hcv
        obtain ⟨c, hc, hfc⟩ := List.mem_filterMap.mp hcv
        simpa using h c hc cv hfc
  | down =>
    show g.FilterParents k st = some [] ↔
      ((g.find? k).isSome ∧ ∀ c ∈ g.parentKeys k, ∀ cv, g.find? c = some cv → cv.status ≠ st)
    unfold Graph.FilterParents Graph.parentKeys
    cases hf : g.find? k with
    | none => simp
    | some v =>
      simp only [Option.isSome_some, true_and, Option.some.injEq]
      rw [List.filter_eq_nil_iff]
      constructor
      · intro h c hc cv hcv hst
        exact h cv (List.mem_filterMap.mpr ⟨c, hc, hcv⟩) (by simp [hst])
      · intro h cv hcv
        obtain ⟨c, hc, hfc⟩ := List.mem_filterMap.mp hcv
        simpa using h c hc cv hfc

/-- Readiness is stable under promoting any vertex to the target status. -/
theorem filterAdjacent_some_nil_upd (d : TraversalDirection) (g : Graph)
    (k k0 : String)
    (h : filterAdjacentByStatus d g k (adjacentServiceStatusToSkip d) = some []) :
    filterAdjacentByStatus d ((g.UpdateStatus k0 (targetServiceStatus d)).getD g)
      k (adjacentServiceStatusToSkip d) = some [] := by
  rw [filterAdjacent_some_nil_iff] at h
  rw [filterAdjacent_some_nil_iff]
  obtain ⟨hsome, hall⟩ := h
  constructor
  · rw [updGetD_find?]
    cases hfk : g.find? k with
    | none => rw [hfk] at hsome; cases hsome
    | some v => rfl
  · intro c hc cv hcv
    have hgate : gatingKeys d ((g.UpdateStatus k0 (targetServiceStatus d)).getD g) k
        = gatingKeys d g k := by
      cases d with
      | up => exact updGetD_childKeys g k0 _ k
      | down => exact updGetD_parentKeys g k0 _ k
    rw [hgate] at hc
    rw [updGetD_find?] at hcv
    cases hfc : g.find? c with
    | none => rw [hfc] at hcv; cases hcv
    | some cv0 =>
      rw [hfc] at hcv
      simp only [Option.map_some', Option.some.injEq] at hcv
      subst hcv
      have := hall c hc cv0 hfc
      unfold setStatusFn
      by_cases hk : (cv0.key == k0) = true
      · simp only [hk, if_true]
        exact fun hh => target_ne_skip d hh
      · simp only [hk, if_false]
        exact this

theorem nodup_append_singleton (l : List String) (a : String)
    (h : l.Nodup) (ha : a ∉ l) : (l ++ [a]).Nodup := by
  rw [List.nodup_append]
  refine ⟨h, List.nodup_singleton a, ?_⟩
  intro x hx hxa
  rw [List.mem_singleton] at hxa
  exact ha (hxa ▸ hx)

/-- The inductive invariant of the traversal: the graph keeps its shape,
statuses reach the target only for successfully visited vertices, the
seen-set is duplicate-free and covers the in-flight workers, every seen
vertex passed its readiness check (which is stable), the countdown matches
the number of delivered completions, and recorded errors cancel the shared
context. -/
structure TravInv (d : TraversalDirection) (visitor : String → Option String)
    (g0 : Graph) (s : TravState) : Prop where
  keysEq : s.graph.keys = g0.keys
  childKeysEq : ∀ k, s.graph.childKeys k = g0.childKeys k
  parentKeysEq : ∀ k, s.graph.parentKeys k = g0.parentKeys k
  statusInv : ∀ v ∈ s.graph.vertices, v.status = targetServiceStatus d →
    v.key ∈ s.seen ∧ visitor v.key = none
  seenNodup : s.seen.Nodup
  seenKeys : ∀ k ∈ s.seen, k ∈ g0.keys
  seenReady : ∀ k ∈ s.seen,
    filterAdjacentByStatus d s.graph k (adjacentServiceStatusToSkip d) = some []
  runningSub : ∀ k ∈ s.running, k ∈ s.seen
  sendSub : ∀ p ∈ s.sendPending, p.1 ∈ s.seen
  runningNodup : s.running.Nodup
  sendNodup : (s.sendPending.map Prod.fst).Nodup
  runSendDisj : ∀ k ∈ s.running, ∀ p ∈ s.sendPending, k ≠ p.1
  sendRes : ∀ p ∈ s.sendPending, p.2 = visitor p.1
  sendStatus : ∀ p ∈ s.sendPending, p.2 = none →
    ∀ v ∈ s.graph.vertices, v.key = p.1 → v.status = targetServiceStatus d
  delivInv : ∀ k ∈ s.seen, k ∉ s.running → k ∉ s.sendPending.map Prod.fst →
    ((visitor k = none
        ∧ ∀ v ∈ s.graph.vertices, v.key = k → v.status = targetServiceStatus d)
      ∨ s.firstErr ≠ none)
  expectEq : s.expect + s.seen.length
    = g0.vertices.length + s.running.length + s.sendPending.length
  notDonePos : s.coordDone = false → 1 ≤ s.expect
  doneZero : s.coordDone = true → s.expect = 0
  errCanceled : s.firstErr ≠ none → s.canceled = true
  errRange : s.firstErr ≠ none → ∃ k ∈ s.seen, s.firstErr = visitor k

theorem travInv_of_fields (d : TraversalDirection)
    (visitor : String → Option String) (g0 : Graph) (t s : TravState)
    (hg : s.graph = t.graph) (hseen : s.seen = t.seen)
    (hrun : s.running = t.running) (hsend : s.sendPending = t.sendPending)
    (hexp : s.expect = t.expect) (herr : s.firstErr = t.firstErr)
    (hcan : s.canceled = t.canceled) (hdone : s.coordDone = t.coordDone)
    (hinv : TravInv d visitor g0 t) : TravInv d visitor g0 s := by
  cases s
  simp only at hg hseen hrun hsend hexp herr hcan hdone
  subst hg
  subst hseen
  subst hrun
  subst hsend
  subst hexp
  subst herr
  subst hcan
  subst hdone
  exact ⟨hinv.keysEq, hinv.childKeysEq, hinv.parentKeysEq, hinv.statusInv,
    hinv.seenNodup, hinv.seenKeys, hinv.seenReady, hinv.runningSub,
    hinv.sendSub, hinv.runningNodup, hinv.sendNodup, hinv.runSendDisj,
    hinv.sendRes, hinv.sendStatus, hinv.delivInv, hinv.expectEq,
    hinv.notDonePos, hinv.doneZero, hinv.errCanceled, hinv.errRange⟩

theorem travInv_processNode (d : TraversalDirection)
    (visitor : String → Option String) (g0 : Graph) (s : TravState)
    (k : String) (hinv : TravInv d visitor g0 s) :
    TravInv d visitor g0 (processNode d s k) := by
  unfold processNode
  by_cases hready :
      filterAdjacentByStatus d s.graph k (adjacentServiceStatusToSkip d) = some []
  · rw [if_pos hready]
    by_cases hseen : k ∈ s.seen
    · rw [if_pos hseen]
      exact hinv
    · rw [if_neg hseen]
      have hkkeys : k ∈ g0.keys := by
        have hsome := ((filterAdjacent_some_nil_iff d s.graph k _).mp hready).1
        rw [← hinv.keysEq]
        exact (Graph.find?_isSome_iff_mem_keys s.graph k).mp hsome
      have hkrun : k ∉ s.running := fun h => hseen (hinv.runningSub k h)
      refine ⟨hinv.keysEq, hinv.childKeysEq, hinv.parentKeysEq, ?_, ?_, ?_, ?_,
        ?_, ?_, ?_, hinv.sendNodup, ?_, hinv.sendRes, hinv.sendStatus, ?_, ?_,
        hinv.notDonePos, hinv.doneZero, hinv.errCanceled, ?_⟩
      · intro v hv hst
        obtain ⟨hmem, hvis⟩ := hinv.statusInv v hv hst
        exact ⟨List.mem_append_left _ hmem, hvis⟩
      · exact nodup_append_singleton _ _ hinv.seenNodup hseen
      · intro k2 hk2
        rcases List.mem_append.mp hk2 with h1 | h1
        · exact hinv.seenKeys k2 h1
        · have : k2 = k := by simpa using h1
          exact this ▸ hkkeys
      · intro k2 hk2
        rcases List.mem_append.mp hk2 with h1 | h1
        · exact hinv.seenReady k2 h1
        · have : k2 = k := by simpa using h1
          exact this ▸ hready
      · intro k2 hk2
        rcases List.mem_append.mp hk2 with h1 | h1
        · exact List.mem_append_left _ (hinv.runningSub k2 h1)
        · exact List.mem_append_right _ h1
      · intro p hp
        exact List.mem_append_left _ (hinv.sendSub p hp)
      · exact nodup_append_singleton _ _ hinv.runningNodup hkrun
      · intro k2 hk2 p hp
        rcases List.mem_append.mp hk2 with h1 | h1
        · exact hinv.runSendDisj k2 h1 p hp
        · have hk2k : k2 = k := by simpa using h1
          subst hk2k
          intro hkp
          exact hseen (hkp ▸ hinv.sendSub p hp)
      · intro k2 hk2 hrun hsendp
        rcases List.mem_append.mp hk2 with h1 | h1
        · exact hinv.delivInv k2 h1 (fun h => hrun (List.mem_append_left _ h)) hsendp
        · have : k2 = k := by simpa using h1
          subst this
          exact absurd (List.mem_append_right _ (List.mem_singleton_self k2)) hrun
      · have := hinv.expectEq
        simp only [List.length_append, List.length_singleton]
        omega
      · intro herr
        obtain ⟨k2, hk2, he⟩ := hinv.errRange herr
        exact ⟨k2, List.mem_append_left _ hk2, he⟩
  · rw [if_neg hready]
    exact hinv

theorem travInv_step (d : TraversalDirection)
    (visitor : String → Option String) (g0 : Graph) (s s' : TravState)
    (hstep : TravStep d visitor s s') (hinv : TravInv d visitor g0 s) :
    TravInv d visitor g0 s' := by
  cases hstep with
  | main k rest h =>
    exact travInv_of_fields d visitor g0 (processNode d s k) _
      rfl rfl rfl rfl rfl rfl rfl rfl (travInv_processNode d visitor g0 s k hinv)
  | coord k rest h =>
    exact travInv_of_fields d visitor g0 (processNode d s k) _
      rfl rfl rfl rfl rfl rfl rfl rfl (travInv_processNode d visitor g0 s k hinv)
  | finish k hk =>
    have hkseen : k ∈ s.seen := hinv.runningSub k hk
    by_cases hvk : visitor k = none
    · -- successful visit: the vertex status is promoted before the send
      simp only [if_pos hvk]
      refine ⟨?_, ?_, ?_, ?_, hinv.seenNodup, hinv.seenKeys, ?_, ?_, ?_, ?_,
        ?_, ?_, ?_, ?_, ?_, ?_, hinv.notDonePos, hinv.doneZero, hinv.errCanceled,
        hinv.errRange⟩
      · rw [updGetD_keys]
        exact hinv.keysEq
      · intro k2
        rw [updGetD_childKeys]
        exact hinv.childKeysEq k2
      · intro k2
        rw [updGetD_parentKeys]
        exact hinv.parentKeysEq k2
      · intro v hv hst
        rw [updGetD_vertices] at hv
        obtain ⟨w, hw, hwv⟩ := List.mem_map.mp hv
        subst hwv
        rw [setStatusFn_key]
        by_cases hwk : (w.key == k) = true
        · have : w.key = k := beq_iff_eq.mp hwk
          rw [this]
          exact ⟨hkseen, hvk⟩
        · have hfix : setStatusFn k (targetServiceStatus d) w = w := by
            unfold setStatusFn
            rw [if_neg hwk]
          rw [hfix] at hst
          exact hinv.statusInv w hw hst
      · intro k2 hk2
        exact filterAdjacent_some_nil_upd d s.graph k2 k (hinv.seenReady k2 hk2)
      · intro k2 hk2
        exact hinv.runningSub k2 (List.mem_of_mem_erase hk2)
      · intro p hp
        rcases List.mem_append.mp hp with h1 | h1
        · exact hinv.sendSub p h1
        · have : p = (k, visitor k) := by simpa using h1
          rw [this]
          exact hkseen
      · exact hinv.runningNodup.erase k
      · rw [List.map_append]
        refine nodup_append_singleton _ _ hinv.sendNodup ?_
        intro hmem
        obtain ⟨p, hp, hpk⟩ := List.mem_map.mp hmem
        exact hinv.runSendDisj k hk p hp hpk.symm
      · intro k2 hk2 p hp
        have hk2run : k2 ∈ s.running := List.mem_of_mem_erase hk2
        rcases List.mem_append.mp hp with h1 | h1
        · exact hinv.runSendDisj k2 hk2run p h1
        · have hpk : p = (k, visitor k) := by simpa using h1
          rw [hpk]
          exact ((hinv.runningNodup.mem_erase_iff).mp hk2).1
      · intro p hp
        rcases List.mem_append.mp hp with h1 | h1
        · exact hinv.sendRes p h1
        · have : p = (k, visitor k) := by simpa using h1
          rw [this]
      · intro p hp hpnone v hv hvk2
        rw [updGetD_vertices] at hv
        obtain ⟨w, hw, hwv⟩ := List.mem_map.mp hv
        subst hwv
        rw [setStatusFn_key] at hvk2
        by_cases hwk : (w.key == k) = true
        · unfold setStatusFn
          rw [if_pos hwk]
        · have hfix : setStatusFn k (targetServiceStatus d) w = w := by
            unfold setStatusFn
            rw [if_neg hwk]
          rw [hfix]
          rcases List.mem_append.mp hp with h1 | h1
          · exact hinv.sendStatus p h1 hpnone w hw hvk2
          · have hpk : p = (k, visitor k) := by simpa using h1
            rw [hpk] at hvk2
            simp only at hvk2
            exact absurd (beq_iff_eq.mpr hvk2) hwk
      · intro k2 hk2 hrun hsendp
        by_cases hk2k : k2 = k
        · subst hk2k
          exact absurd (by
            rw [List.map_append]
            exact List.mem_append_right _ (by simp)) hsendp
        · have hrun' : k2 ∉ s.running := by
            intro h1
            exact hrun ((hinv.runningNodup.mem_erase_iff).mpr ⟨hk2k, h1⟩)
          have hsendp' : k2 ∉ s.sendPending.map Prod.fst := by
            intro h1
            rw [List.map_append] at hsendp
            exact hsendp (List.mem_append_left _ h1)
          rcases hinv.delivInv k2 hk2 hrun' hsendp' with ⟨hv2, hst2⟩ | herr2
          · refine Or.inl ⟨hv2, ?_⟩
            intro v hv hvk2
            rw [updGetD_vertices] at hv
            obtain ⟨w, hw, hwv⟩ := List.mem_map.mp hv
            subst hwv
            rw [setStatusFn_key] at hvk2
            by_cases hwk : (w.key == k) = true
            · unfold setStatusFn
              rw [if_pos hwk]
            · have hfix : setStatusFn k (targetServiceStatus d) w = w := by
                unfold setStatusFn
                rw [if_neg hwk]
              rw [hfix]
              exact hst2 w hw hvk2
          · exact Or.inr herr2
      · have := hinv.expectEq
        have hlen : (s.running.erase k).length = s.running.length - 1 :=
          List.length_erase_of_mem hk
        have hpos : 1 ≤ s.running.length := List.length_pos.mpr (by
          intro hnil
          rw [hnil] at hk
          cases hk)
        simp only [List.length_append, List.length_singleton, hlen]
        omega
    · -- failed visit: the graph is untouched
      simp only [if_neg hvk]
      refine ⟨hinv.keysEq, hinv.childKeysEq, hinv.parentKeysEq, ?_,
        hinv.seenNodup, hinv.seenKeys, hinv.seenReady, ?_, ?_, ?_, ?_, ?_, ?_,
        ?_, ?_, ?_, hinv.notDonePos, hinv.doneZero, hinv.errCanceled,
        hinv.errRange⟩
      · exact hinv.statusInv
      · intro k2 hk2
        exact hinv.runningSub k2 (List.mem_of_mem_erase hk2)
      · intro p hp
        rcases List.mem_append.mp hp with h1 | h1
        · exact hinv.sendSub p h1
        · have : p = (k, visitor k) := by simpa using h1
          rw [this]
          exact hkseen
      · exact hinv.runningNodup.erase k
      · rw [List.map_append]
        refine nodup_append_singleton _ _ hinv.sendNodup ?_
        intro hmem
        obtain ⟨p, hp, hpk⟩ := List.mem_map.mp hmem
        exact hinv.runSendDisj k hk p hp hpk.symm
      · intro k2 hk2 p hp
        have hk2run : k2 ∈ s.running := List.mem_of_mem_erase hk2
        rcases List.mem_append.mp hp with h1 | h1
        · exact hinv.runSendDisj k2 hk2run p h1
        · have hpk : p = (k, visitor k) := by simpa using h1
          rw [hpk]
          exact ((hinv.runningNodup.mem_erase_iff).mp hk2).1
      · intro p hp
        rcases List.mem_append.mp hp with h1 | h1
        · exact hinv.sendRes p h1
        · have : p = (k, visitor k) := by simpa using h1
          rw [this]
      · intro p hp hpnone
        rcases List.mem_append.mp hp with h1 | h1
        · exact hinv.sendStatus p h1 hpnone
        · have hpk : p = (k, visitor k) := by simpa using h1
          rw [hpk] at hpnone
          simp only at hpnone
          exact absurd hpnone hvk
      · intro k2 hk2 hrun hsendp
        by_cases hk2k : k2 = k
        · subst hk2k
          exact absurd (by
            rw [List.map_append]
            exact List.mem_append_right _ (by simp)) hsendp
        · have hrun' : k2 ∉ s.running := by
            intro h1
            exact hrun ((hinv.runningNodup.mem_erase_iff).mpr ⟨hk2k, h1⟩)
          have hsendp' : k2 ∉ s.sendPending.map Prod.fst := by
            intro h1
            rw [List.map_append] at hsendp
            exact hsendp (List.mem_append_left _ h1)
          exact hinv.delivInv k2 hk2 hrun' hsendp'
      · have := hinv.expectEq
        have hlen : (s.running.erase k).length = s.running.length - 1 :=
          List.length_erase_of_mem hk
        have hpos : 1 ≤ s.running.length := List.length_pos.mpr (by
          intro hnil
          rw [hnil] at hk
          cases hk)
        simp only [List.length_append, List.length_singleton, hlen]
        omega
  | rendezvous pre post k r adj hidle hdone hsend hadj =>
    have hexpect1 : 1 ≤ s.expect := hinv.notDonePos hdone
    have hkmem : (k, r) ∈ s.sendPending := by
      rw [hsend]
      exact List.mem_append_right _ (List.mem_cons_self _ _)
    have hkseen : k ∈ s.seen := hinv.sendSub (k, r) hkmem
    have hr : r = visitor k := hinv.sendRes (k, r) hkmem
    refine ⟨hinv.keysEq, hinv.childKeysEq, hinv.parentKeysEq, ?_,
      hinv.seenNodup, hinv.seenKeys, hinv.seenReady, hinv.runningSub, ?_,
      hinv.runningNodup, ?_, ?_, ?_, ?_, ?_, ?_, ?_, ?_, ?_, ?_⟩
    · intro v hv hst
      exact hinv.statusInv v hv hst
    · intro p hp
      refine hinv.sendSub p ?_
      rw [hsend]
      rcases List.mem_append.mp hp with h1 | h1
      · exact List.mem_append_left _ h1
      · exact List.mem_append_right _ (List.mem_cons_of_mem _ h1)
    · have := hinv.sendNodup
      rw [hsend, List.map_append, List.map_cons] at this
      rw [List.map_append]
      exact (List.Nodup.sublist (by
        refine List.Sublist.append (List.Sublist.refl _) ?_
        exact List.sublist_cons_self _ _) this)
    · intro k2 hk2 p hp
      refine hinv.runSendDisj k2 hk2 p ?_
      rw [hsend]
      rcases List.mem_append.mp hp with h1 | h1
      · exact List.mem_append_left _ h1
      · exact List.mem_append_right _ (List.mem_cons_of_mem _ h1)
    · intro p hp
      refine hinv.sendRes p ?_
      rw [hsend]
      rcases List.mem_append.mp hp with h1 | h1
      · exact List.mem_append_left _ h1
      · exact List.mem_append_right _ (List.mem_cons_of_mem _ h1)
    · intro p hp hpnone
      refine hinv.sendStatus p ?_ hpnone
      rw [hsend]
      rcases List.mem_append.mp hp with h1 | h1
      · exact List.mem_append_left _ h1
      · exact List.mem_append_right _ (List.mem_cons_of_mem _ h1)
    · intro k2 hk2 hrun hsendp
      by_cases hk2k : k2 = k
      · subst hk2k
        cases hrv : r with
        | none =>
          refine Or.inl ⟨by rw [← hrv, hr], ?_⟩
          intro v hv hvk
          exact hinv.sendStatus (k2, r) hkmem hrv v hv hvk
        | some e =>
          refine Or.inr ?_
          simp only [hrv]
          cases s.firstErr <;> simp [Option.orElse]
      · have hsendp' : k2 ∉ s.sendPending.map Prod.fst := by
          intro h1
          rw [hsend, List.map_append, List.map_cons] at h1
          rcases List.mem_append.mp h1 with h2 | h2
          · exact hsendp (by rw [List.map_append]; exact List.mem_append_left _ h2)
          · rcases List.mem_cons.mp h2 with h3 | h3
            · exact hk2k h3
            · exact hsendp (by rw [List.map_append]; exact List.mem_append_right _ h3)
        rcases hinv.delivInv k2 hk2 hrun hsendp' with h | h
        · exact Or.inl h
        · refine Or.inr ?_
          intro hcontra
          apply h
          cases hfe : s.firstErr with
          | none => rfl
          | some e =>
            rw [hfe] at hcontra
            simp [Option.orElse] at hcontra
    · have := hinv.expectEq
      have hsl : s.sendPending.length = pre.length + post.length + 1 := by
        rw [hsend]
        simp only [List.length_append, List.length_cons]
        omega
      simp only [List.length_append]
      omega
    · intro hnd
      have h0 : ¬ (s.expect - 1 = 0) := by simpa using hnd
      show 1 ≤ s.expect - 1
      omega
    · intro hd
      have h0 : s.expect - 1 = 0 := by simpa using hd
      show s.expect - 1 = 0
      omega
    · intro herr
      simp only at herr
      by_cases hfe : s.firstErr = none
      · rw [hfe] at herr
        simp only [Option.orElse, Option.none_orElse] at herr
        cases hrv : r with
        | none => rw [hrv] at herr; simp [Option.orElse] at herr
        | some e => simp [hrv]
      · have := hinv.errCanceled hfe
        simp [this]
    · intro herr
      cases hfe : s.firstErr with
      | some e =>
        obtain ⟨k2, hk2, he⟩ := hinv.errRange (by rw [hfe]; simp)
        refine ⟨k2, hk2, ?_⟩
        rw [hfe] at he
        simpa [Option.orElse] using he
      | none =>
        refine ⟨k, hkseen, ?_⟩
        simpa [Option.orElse] using hr

theorem travInv_init (d : TraversalDirection)
    (visitor : String → Option String) (g0 : Graph) (s0 : TravState)
    (hstart : TravStart d g0 s0)
    (hinit : ∀ v ∈ g0.vertices, v.status = adjacentServiceStatusToSkip d) :
    TravInv d visitor g0 s0 := by
  obtain ⟨exts, hperm, hs0⟩ := hstart
  subst hs0
  refine ⟨rfl, fun k => rfl, fun k => rfl, ?_, List.nodup_nil, ?_, ?_, ?_, ?_,
    List.nodup_nil, by simp [travInit], ?_, ?_, ?_, ?_, ?_, ?_, ?_, ?_, ?_⟩
  · intro v hv hst
    rw [hinit v hv] at hst
    exact absurd hst.symm (target_ne_skip d)
  · intro k hk
    cases hk
  · intro k hk
    cases hk
  · intro k hk
    cases hk
  · intro p hp
    cases hp
  · intro k hk
    cases hk
  · intro p hp
    cases hp
  · intro p hp
    cases hp
  · intro k hk
    cases hk
  · simp [travInit]
  · intro hnd
    simp only [travInit] at hnd
    have : ¬ (g0.vertices.length = 0) := by simpa using hnd
    show 1 ≤ g0.vertices.length
    omega
  · intro hd
    simp only [travInit] at hd
    have : g0.vertices.length = 0 := by simpa using hd
    show g0.vertices.length = 0
    omega
  · intro herr
    exact absurd rfl herr
  · intro herr
    exact absurd rfl herr

theorem travInv_reaches (d : TraversalDirection)
    (visitor : String → Option String) (g0 : Graph) (s : TravState)
    (hinit : ∀ v ∈ g0.vertices, v.status = adjacentServiceStatusToSkip d)
    (h : Reaches d visitor g0 s) : TravInv d visitor g0 s := by
  obtain ⟨s0, hstart, hsteps⟩ := h
  induction hsteps with
  | refl => exact travInv_init d visitor g0 s0 hstart hinit
  | tail h1 h2 ih => exact travInv_step d visitor g0 _ _ h2 ih

/-- At coordinator completion (`expect == 0`, `close(nodeCh)`), no worker is
running or blocked sending, and the seen-set is exactly the key set. -/
theorem coordDone_all_seen (d : TraversalDirection)
    (visitor : String → Option String) (g0 : Graph) (s : TravState)
    (hinv : TravInv d visitor g0 s) (hdone : s.coordDone = true) :
    s.running = [] ∧ s.sendPending = []
    ∧ (∀ k, k ∈ s.seen ↔ k ∈ g0.keys) := by
  have hexp := hinv.doneZero hdone
  have heq := hinv.expectEq
  have hsubperm : s.seen.Subperm g0.keys.dedup :=
    List.subperm_of_subset hinv.seenNodup
      (fun k hk => List.mem_dedup.mpr (hinv.seenKeys k hk))
  have hlen1 : s.seen.length ≤ g0.keys.dedup.length := hsubperm.length_le
  have hlen2 : g0.keys.dedup.length ≤ g0.keys.length :=
    (List.dedup_sublist _).length_le
  have hkeysv : g0.keys.length = g0.vertices.length := List.length_map _ _
  have hrun0 : s.running.length = 0 := by omega
  have hsend0 : s.sendPending.length = 0 := by omega
  refine ⟨List.length_eq_zero.mp hrun0, List.length_eq_zero.mp hsend0, ?_⟩
  have hperm : s.seen.Perm g0.keys.dedup :=
    hsubperm.perm_of_length_le (by omega)
  intro k
  rw [hperm.mem_iff]
  exact List.mem_dedup

/-- A seen vertex's readiness: the skip-filter is empty and every gating
neighbor's status is the target status. -/
theorem seen_gating_target (d : TraversalDirection)
    (visitor : String → Option String) (g0 : Graph) (s : TravState)
    (hinv : TravInv d visitor g0 s) (v : String) (hv : v ∈ s.seen) :
    filterAdjacentByStatus d s.graph v (adjacentServiceStatusToSkip d) = some []
    ∧ ∀ c ∈ gatingKeys d g0 v, ∀ cv, s.graph.find? c = some cv →
        cv.status = targetServiceStatus d := by
  have hready := hinv.seenReady v hv
  refine ⟨hready, ?_⟩
  intro c hc cv hcv
  have hchar := (filterAdjacent_some_nil_iff d s.graph v _).mp hready
  have hg : gatingKeys d s.graph v = gatingKeys d g0 v := by
    cases d with
    | up => exact hinv.childKeysEq v
    | down => exact hinv.parentKeysEq v
  have hne := hchar.2 c (by rw [hg]; exact hc) cv hcv
  exact status_two_valued cv.status d hne

/-- A vertex gated by a vertex whose visitor fails is never visited. -/
theorem gating_failed_never_visited (d : TraversalDirection)
    (visitor : String → Option String) (g0 : Graph) (s : TravState)
    (hinv : TravInv d visitor g0 s) (v f : String)
    (hf : f ∈ gatingKeys d g0 v) (hfk : f ∈ g0.keys)
    (hfail : visitor f ≠ none) : v ∉ s.seen := by
  intro hv
  obtain ⟨-, hall⟩ := seen_gating_target d visitor g0 s hinv v hv
  have hsome : (s.graph.find? f).isSome :=
    (Graph.find?_isSome_iff_mem_keys s.graph f).mpr (by rw [hinv.keysEq]; exact hfk)
  obtain ⟨fv, hfv⟩ := Option.isSome_iff_exists.mp hsome
  have hst := hall f hf fv hfv
  have hmem : fv ∈ s.graph.vertices := List.mem_of_find?_eq_some hfv
  have hfvk : fv.key = f := by
    have h0 := List.find?_some hfv
    exact beq_iff_eq.mp h0
  exact hfail (hfvk ▸ (hinv.statusInv fv hmem hst).2)

/-- C4: for every graph and every traversal direction, no interleaving of
the workers invokes a vertex's visitor twice — the seen-set (the record of
started visitor invocations) stays duplicate-free and covers the running
workers — and when the traversal runs to completion (`expect` reached zero
and `nodeCh` was closed) the seen-set is exactly the vertex key set: each
visitor was invoked exactly once. -/
theorem C4_visitor_at_most_once (d : TraversalDirection)
    (visitor : String → Option String) (g0 : Graph) (s : TravState)
    (hinit : ∀ v ∈ g0.vertices, v.status = adjacentServiceStatusToSkip d)
    (hreach : Reaches d visitor g0 s) :
    s.seen.Nodup ∧ (∀ k ∈ s.running, k ∈ s.seen)
    ∧ (s.coordDone = true → ∀ k, (k ∈ s.seen ↔ k ∈ g0.keys)) := by
  have hinv := travInv_reaches d visitor g0 s hinit hreach
  exact ⟨hinv.seenNodup, hinv.runningSub,
    fun hd => (coordDone_all_seen d visitor g0 s hinv hd).2.2⟩

/-- C5: whenever a vertex's visitor has been started, its readiness check
held: the skip-status filter over its gating neighbors is empty, i.e. every
gating neighbor (child for up, parent for down) already carries the target
status — and this remains true from the moment of invocation on. -/
theorem C5_ready_when_visited (d : TraversalDirection)
    (visitor : String → Option String) (g0 : Graph) (s : TravState)
    (v : String)
    (hinit : ∀ w ∈ g0.vertices, w.status = adjacentServiceStatusToSkip d)
    (hreach : Reaches d visitor g0 s) (hv : v ∈ s.seen) :
    filterAdjacentByStatus d s.graph v (adjacentServiceStatusToSkip d) = some []
    ∧ ∀ c ∈ gatingKeys d g0 v, ∀ cv, s.graph.find? c = some cv →
        cv.status = targetServiceStatus d :=
  seen_gating_target d visitor g0 s
    (travInv_reaches d visitor g0 s hinit hreach) v hv

/-- C6: when a traversal completes successfully (the countdown reached zero
with no recorded error), every vertex carries the target status — Started
after up, Stopped after down — and on the empty graph `visit` returns nil
immediately, no visitor ever being invoked. -/
theorem C6_success_statuses (d : TraversalDirection)
    (visitor : String → Option String) (g0 : Graph) :
    (∀ s, (∀ v ∈ g0.vertices, v.status = adjacentServiceStatusToSkip d) →
      Reaches d visitor g0 s → s.coordDone = true → s.firstErr = none →
      ∀ v ∈ s.graph.vertices, v.status = targetServiceStatus d)
    ∧ (g0.vertices = [] →
        (travInit d g0).coordDone = true
        ∧ (travInit d g0).firstErr = none
        ∧ ∀ s, Reaches d visitor g0 s → s.seen = []) := by
  constructor
  · intro s hinit hreach hdone hok
    have hinv := travInv_reaches d visitor g0 s hinit hreach
    obtain ⟨hrun, hsend, hiff⟩ := coordDone_all_seen d visitor g0 s hinv hdone
    intro v hv
    have hvk : v.key ∈ g0.keys := by
      rw [← hinv.keysEq]
      exact List.mem_map.mpr ⟨v, hv, rfl⟩
    have hseen : v.key ∈ s.seen := (hiff v.key).mpr hvk
    have hdeliv := hinv.delivInv v.key hseen
      (by rw [hrun]; intro h; cases h)
      (by rw [hsend]; intro h; cases h)
    rcases hdeliv with ⟨-, hst⟩ | herr
    · exact hst v hv rfl
    · exact absurd hok herr
  · intro hempty
    refine ⟨by simp [travInit, hempty], rfl, ?_⟩
    intro s hreach
    have hinit : ∀ v ∈ g0.vertices, v.status = adjacentServiceStatusToSkip d := by
      rw [hempty]
      intro v hv
      cases hv
    have hinv := travInv_reaches d visitor g0 s hinit hreach
    cases hs : s.seen with
    | nil => rfl
    | cons k rest =>
      have hk : k ∈ g0.keys := hinv.seenKeys k (by rw [hs]; exact List.mem_cons_self k rest)
      rw [show g0.keys = [] from by simp [Graph.keys, hempty]] at hk
      cases hk

/-- The one-vertex example run used by the traversal witnesses. -/
def travExampleGraph : Graph :=
  Graph.mk [⟨"a", "a", ServiceStatus.stopped, [], []⟩]

def travExampleVisitor : String → Option String := fun _ => none

def travExampleS0 : TravState := travInit .up travExampleGraph

def travExampleS1 : TravState :=
  { processNode .up travExampleS0 "a" with mainPending := [] }

def travExampleS2 : TravState :=
  { graph := Graph.mk [⟨"a", "a", ServiceStatus.started, [], []⟩]
    seen := ["a"], mainPending := [], running := []
    sendPending := [("a", none)], coordPending := []
    expect := 1, firstErr := none, canceled := false, coordDone := false }

def travExampleS3 : TravState :=
  { graph := Graph.mk [⟨"a", "a", ServiceStatus.started, [], []⟩]
    seen := ["a"], mainPending := [], running := []
    sendPending := [], coordPending := []
    expect := 0, firstErr := none, canceled := false, coordDone := true }

theorem travExample_reaches1 :
    Reaches .up travExampleVisitor travExampleGraph travExampleS1 := by
  refine ⟨travExampleS0, ⟨["a"], List.Perm.refl _, rfl⟩, ?_⟩
  exact Relation.ReflTransGen.single (TravStep.main travExampleS0 "a" [] rfl)

theorem travExample_reaches3 :
    Reaches .up travExampleVisitor travExampleGraph travExampleS3 := by
  refine ⟨travExampleS0, ⟨["a"], List.Perm.refl _, rfl⟩, ?_⟩
  have h1 : TravStep .up travExampleVisitor travExampleS0 travExampleS1 :=
    TravStep.main travExampleS0 "a" [] rfl
  have h2 : TravStep .up travExampleVisitor travExampleS1 travExampleS2 :=
    TravStep.finish travExampleS1 "a" (by decide)
  have h3 : TravStep .up travExampleVisitor travExampleS2 travExampleS3 :=
    TravStep.rendezvous travExampleS2 [] [] "a" none [] rfl rfl rfl
      (List.Perm.refl _)
  exact Relation.ReflTransGen.tail
    (Relation.ReflTransGen.tail (Relation.ReflTransGen.single h1) h2) h3

/-- Witness for C4 at the completed one-vertex run. -/
theorem C4_visitor_at_most_once_witness :
    travExampleS3.seen.Nodup
    ∧ (∀ k ∈ travExampleS3.running, k ∈ travExampleS3.seen)
    ∧ (travExampleS3.coordDone = true →
        ∀ k, (k ∈ travExampleS3.seen ↔ k ∈ travExampleGraph.keys)) :=
  C4_visitor_at_most_once .up travExampleVisitor travExampleGraph travExampleS3
    (by decide) travExample_reaches3

/-- Witness for C5 at the one-vertex run just after the spawn. -/
theorem C5_ready_when_visited_witness :
    filterAdjacentByStatus .up travExampleS1.graph "a"
        (adjacentServiceStatusToSkip .up) = some []
    ∧ ∀ c ∈ gatingKeys .up travExampleGraph "a",
        ∀ cv, travExampleS1.graph.find? c = some cv →
          cv.status = targetServiceStatus .up :=
  C5_ready_when_visited .up travExampleVisitor travExampleGraph travExampleS1
    "a" (by decide) travExample_reaches1 (by decide)

/-- Witness for C6 at the completed one-vertex run. -/
theorem C6_success_statuses_witness :
    ∀ v ∈ travExampleS3.graph.vertices,
      v.status = targetServiceStatus .up :=
  (C6_success_statuses .up travExampleVisitor travExampleGraph).1
    travExampleS3 (by decide) travExample_reaches3 rfl rfl

/-- The diamond project A→{B,C}→D. -/
def diamondServices : List ServiceConfig :=
  [⟨"a", ["b", "c"]⟩, ⟨"b", ["d"]⟩, ⟨"c", ["d"]⟩, ⟨"d", []⟩]

def diamondGraph : Graph := newGraphBuilt diamondServices ServiceStatus.stopped

/-- C's visitor fails with error X, all others succeed. -/
def diamondVisitor : String → Option String :=
  fun name => if name = "c" then some "X" else none

/-- C2: on the diamond A→{B,C}→D with C's visitor failing with X, in every
interleaving the up-traversal never signals completion — vertex a stays
unready forever because c keeps status Stopped, `expect` never reaches
zero, the coordinator never closes `nodeCh`, and `eg.Wait()` never returns
— a's visitor is never invoked, and once the failure is recorded the first
error is X and the shared context has been cancelled.  (The spec claims
`visit` returns the first error; the code instead blocks forever on this
input.) -/
theorem C2_failed_dependency_never_completes :
    NewGraph diamondServices ServiceStatus.stopped = .ok diamondGraph
    ∧ (∀ s, Reaches .up diamondVisitor diamondGraph s →
        s.coordDone = false
        ∧ "a" ∉ s.seen
        ∧ (s.firstErr ≠ none → s.firstErr = some "X" ∧ s.canceled = true)) := by
  constructor
  · rfl
  · intro s hreach
    have hinit : ∀ v ∈ diamondGraph.vertices,
        v.status = adjacentServiceStatusToSkip .up := by decide
    have hinv := travInv_reaches .up diamondVisitor diamondGraph s hinit hreach
    have hanot : "a" ∉ s.seen := by
      refine gating_failed_never_visited .up diamondVisitor diamondGraph s hinv
        "a" "c" ?_ ?_ ?_
      · show "c" ∈ gatingKeys .up diamondGraph "a"
        decide
      · show "c" ∈ diamondGraph.keys
        decide
      · intro h
        simp [diamondVisitor] at h
    refine ⟨?_, hanot, ?_⟩
    · by_contra hdone
      have hdone' : s.coordDone = true := by
        cases h : s.coordDone
        · exact absurd h hdone
        · rfl
      have hiff :=
        (coordDone_all_seen .up diamondVisitor diamondGraph s hinv hdone').2.2
      exact hanot ((hiff "a").mpr (by decide))
    · intro herr
      obtain ⟨k, hk, he⟩ := hinv.errRange herr
      have hkc : k = "c" := by
        by_contra hkc
        rw [show diamondVisitor k = none from by simp [diamondVisitor, hkc]] at he
        exact herr he
      rw [hkc] at he
      exact ⟨by rw [he]; rfl, hinv.errCanceled herr⟩

/-- Witness for C2 at the initial state of the diamond traversal. -/
theorem C2_failed_dependency_never_completes_witness :
    (travInit .up diamondGraph).coordDone = false
    ∧ "a" ∉ (travInit .up diamondGraph).seen
    ∧ ((travInit .up diamondGraph).firstErr ≠ none →
        (travInit .up diamondGraph).firstErr = some "X"
        ∧ (travInit .up diamondGraph).canceled = true) :=
  C2_failed_dependency_never_completes.2 (travInit .up diamondGraph)
    ⟨travInit .up diamondGraph,
      ⟨(extremityNodes .up diamondGraph).map (fun v => v.key),
        List.Perm.refl _, by rfl⟩,
      Relation.ReflTransGen.refl⟩
